import Mathlib

/-!
Verification development for the avro-schema automation library.

Embedded components (from `src/automation/py/avro-schema/`):
* `case_avro.py` — recursive case transformation over Avro schema documents
  (`case_item`, `case_record`, `CASE_TO_FUNC`).
* `dacite_config.py` — coercion-configuration builder
  (`parse_datetime`, `parse_date`, `parse_time`, `parse_bytes`, `parse_uuid`,
  `generate_dacite_config`).

Third-party collaborators are modelled:
* the `casefy` case-conversion library (namespace `Casefy`): word splitting at
  non-alphanumeric separators, lower-to-upper transitions and acronym
  boundaries (`"HTTPResponse"` → `["HTTP", "Response"]`), digit runs as their
  own words, per the library's documented conversions, restricted to ASCII;
* the `dateutil` permissive date-time parser and the stdlib UUID parser, kept
  abstract as `String → Option _` parameters.
-/

/-- JSON-like documents: the shape of the Python dicts that hold Avro schema
documents.  Objects are insertion-ordered key/value lists, as Python dicts. -/
inductive Json where
  | str : String → Json
  | num : Int → Json
  | jbool : Bool → Json
  | null : Json
  | arr : List Json → Json
  | obj : List (String × Json) → Json

/-- Python `dict.get`: first binding of a key in an association list. -/
def alookup {α : Type} : List (String × α) → String → Option α
  | [], _ => none
  | (k, v) :: rest, key => if k = key then some v else alookup rest key

/-- Python `"name" in value` for a dict value. -/
def hasKey (l : List (String × Json)) (key : String) : Bool :=
  (alookup l key).isSome

/-- Python truthiness of a JSON value (`if fields:`). -/
def truthy : Json → Bool
  | .null => false
  | .str s => !(s = "")
  | .num n => !(n = 0)
  | .jbool b => b
  | .arr l => !l.isEmpty
  | .obj l => !l.isEmpty

/-- Modelled from the spec: the `ENUM` constant of `fields/field_utils.py`
(a module of this repository not present under `src/`); per the spec the
enum exemption tests `type == "enum"`. -/
def ENUM : String := "enum"

namespace Casefy

/-- ASCII lowercase letter test (the casefy model is ASCII-only). -/
def isLow (c : Char) : Bool := 97 ≤ c.toNat && c.toNat ≤ 122

/-- ASCII uppercase letter test. -/
def isUp (c : Char) : Bool := 65 ≤ c.toNat && c.toNat ≤ 90

/-- ASCII digit test. -/
def isDig (c : Char) : Bool := 48 ≤ c.toNat && c.toNat ≤ 57

/-- ASCII alphanumeric test. -/
def isAlnum (c : Char) : Bool := isLow c || isUp c || isDig c

/-- ASCII whitespace test (Python `str.strip` default separators). -/
def isSpace (c : Char) : Bool :=
  c = ' ' || c = '\t' || c = '\n' || c = '\r' || c = '\x0b' || c = '\x0c'

/-- ASCII lowering of one character. -/
def toLow (c : Char) : Char := if isUp c then Char.ofNat (c.toNat + 32) else c

/-- ASCII uppering of one character. -/
def toUp (c : Char) : Char := if isLow c then Char.ofNat (c.toNat - 32) else c

/-- Kind of the word currently being accumulated by the splitter. -/
inductive WK where
  | low : WK
  | up : WK
  | dig : WK
deriving DecidableEq

/-- Splitter state: kind, latest character, earlier characters (reversed). -/
abbrev GWState := Option (WK × Char × List Char)

/-- Emit the pending word, if any. -/
def flushW : GWState → List (List Char)
  | none => []
  | some (_, c0, w) => [(c0 :: w).reverse]

/-- Word splitter of the casefy model: one pass over the characters.  Words
are maximal runs of lowercase letters (optionally led by one uppercase
letter), maximal runs of uppercase letters not followed by a lowercase
letter (acronyms), and maximal runs of digits; everything else separates
words and is dropped. -/
def gwGo : GWState → List Char → List (List Char)
  | cur, [] => flushW cur
  | cur, c :: cs =>
    if isLow c then
      match cur with
      | none => gwGo (some (.low, c, [])) cs
      | some (.low, c0, w) => gwGo (some (.low, c, c0 :: w)) cs
      | some (.up, u, []) => gwGo (some (.low, c, [u])) cs
      | some (.up, u, u1 :: us) => (u1 :: us).reverse :: gwGo (some (.low, c, [u])) cs
      | some (.dig, c0, w) => (c0 :: w).reverse :: gwGo (some (.low, c, [])) cs
    else if isUp c then
      match cur with
      | none => gwGo (some (.up, c, [])) cs
      | some (.up, c0, w) => gwGo (some (.up, c, c0 :: w)) cs
      | some (.low, c0, w) => (c0 :: w).reverse :: gwGo (some (.up, c, [])) cs
      | some (.dig, c0, w) => (c0 :: w).reverse :: gwGo (some (.up, c, [])) cs
    else if isDig c then
      match cur with
      | none => gwGo (some (.dig, c, [])) cs
      | some (.dig, c0, w) => gwGo (some (.dig, c, c0 :: w)) cs
      | some (.low, c0, w) => (c0 :: w).reverse :: gwGo (some (.dig, c, [])) cs
      | some (.up, c0, w) => (c0 :: w).reverse :: gwGo (some (.dig, c, [])) cs
    else
      flushW cur ++ gwGo none cs

/-- Casefy `get_words` on a string. -/
def getWords (s : String) : List (List Char) := gwGo none s.data

/-- Lowercase a word. -/
def lowerW (w : List Char) : List Char := w.map toLow

/-- Uppercase a word. -/
def upperW (w : List Char) : List Char := w.map toUp

/-- Python `str.capitalize`: first character uppered, rest lowered. -/
def capW : List Char → List Char
  | [] => []
  | c :: cs => toUp c :: cs.map toLow

/-- Join words with a separator character. -/
def joinSep (sep : Char) : List (List Char) → List Char
  | [] => []
  | [w] => w
  | w :: w2 :: ws => w ++ sep :: joinSep sep (w2 :: ws)

/-- Model of `casefy.snakecase`. -/
def snakecase (s : String) : String := ⟨joinSep '_' ((getWords s).map lowerW)⟩

/-- Model of `casefy.kebabcase`. -/
def kebabcase (s : String) : String := ⟨joinSep '-' ((getWords s).map lowerW)⟩

/-- Model of `casefy.separatorcase`. -/
def separatorcase (s : String) (sep : Char) : String :=
  ⟨joinSep sep ((getWords s).map lowerW)⟩

/-- Model of `casefy.constcase`. -/
def constcase (s : String) : String := ⟨joinSep '_' ((getWords s).map upperW)⟩

/-- Model of `casefy.upperkebabcase`. -/
def upperkebabcase (s : String) : String := ⟨joinSep '-' ((getWords s).map upperW)⟩

/-- Model of `casefy.camelcase`. -/
def camelcase (s : String) : String :=
  match getWords s with
  | [] => ""
  | w :: ws => ⟨lowerW w ++ (ws.map capW).flatten⟩

/-- Model of `casefy.pascalcase`. -/
def pascalcase (s : String) : String := ⟨((getWords s).map capW).flatten⟩

/-- Model of `casefy.lowercase`: words joined, lowered. -/
def lowercase (s : String) : String := ⟨lowerW ((getWords s).flatten)⟩

/-- Model of `casefy.uppercase`: words joined, uppered. -/
def uppercase (s : String) : String := ⟨upperW ((getWords s).flatten)⟩

/-- Model of `casefy.capitalcase`: first character uppered, rest unchanged. -/
def capitalcase (s : String) : String :=
  match s.data with
  | [] => ""
  | c :: cs => ⟨toUp c :: cs⟩

/-- Python `str.strip` on the character list. -/
def stripW (l : List Char) : List Char :=
  ((l.dropWhile isSpace).reverse.dropWhile isSpace).reverse

/-- `str.strip`, the function bound to the `trimcase` token. -/
def trimcase (s : String) : String := ⟨stripW s.data⟩

/-- Model of `casefy.alphanumcase`: drop non-alphanumeric characters. -/
def alphanumcase (s : String) : String := ⟨s.data.filter isAlnum⟩

end Casefy

/-- The case-token → case-function table of `case_avro.py`. -/
def CASE_TO_FUNC : List (String × (String → String)) :=
  [("camelcase", Casefy.camelcase),
   ("capitalcase", Casefy.capitalcase),
   ("constcase", Casefy.constcase),
   ("lowercase", Casefy.lowercase),
   ("pascalcase", Casefy.pascalcase),
   ("pathcase", fun v => Casefy.separatorcase v '/'),
   ("snakecase", Casefy.snakecase),
   ("spinalcase", Casefy.kebabcase),
   ("upperkebabcase", Casefy.upperkebabcase),
   ("trimcase", Casefy.trimcase),
   ("uppercase", Casefy.uppercase),
   ("alphanumcase", Casefy.alphanumcase)]

/-- The twelve valid case tokens, in table order. -/
def validCaseTokens : List String := CASE_TO_FUNC.map Prod.fst

/-- Errors raised by the case transformation.  `unsupported` is the
`ValueError` of `case_item` (carrying the offending token and the valid
token list); `nonStringName` and `typeErr` stand for the `TypeError` /
`AttributeError` Python raises when a name value or an item is not of the
expected shape. -/
inductive CaseError where
  | unsupported (token : String) (valid : List String)
  | nonStringName
  | typeErr
deriving DecidableEq

/-- `avro_schema_dict.get("type") == ENUM`. -/
def typeIsEnum (pairs : List (String × Json)) : Bool :=
  match alookup pairs "type" with
  | some (.str s) => s = ENUM
  | _ => false

/-- The in-place update `avro_schema_dict["fields"] = ...`. -/
def setFields (pairs : List (String × Json)) (v : Json) : List (String × Json) :=
  pairs.map (fun p => if p.1 = "fields" then (p.1, v) else p)

theorem sizeOf_alookup {l : List (String × Json)} {k : String} {v : Json}
    (h : alookup l k = some v) : sizeOf v < sizeOf l := by
  induction l with
  | nil => simp [alookup] at h
  | cons p rest ih =>
    obtain ⟨a, b⟩ := p
    simp only [alookup] at h
    by_cases hak : a = k
    · simp [hak] at h
      subst h
      simp
      omega
    · simp [hak] at h
      have := ih h
      simp
      omega

mutual

/-- The per-entry loop of `case_item` (`case_avro.py` lines 50–68): the
`name` value is case-transformed, a dict value containing a `name` key is
recursed into via `case_record`, list values are mapped, everything else is
preserved. -/
def caseEntries (ct : String) (f : String → String) :
    List (String × Json) → Except CaseError (List (String × Json))
  | [] => .ok []
  | (k, v) :: rest => do
    let v' ←
      if k = "name" then
        match v with
        | .str s => pure (Json.str (f s))
        | _ => throw CaseError.nonStringName
      else
        match v with
        | .obj o => if hasKey o "name" then case_record (.obj o) ct else pure (Json.obj o)
        | .arr l => do
          let l' ← caseList ct l
          pure (Json.arr l')
        | other => pure other
    let rest' ← caseEntries ct f rest
    pure ((k, v') :: rest')
termination_by l => 2 * sizeOf l
decreasing_by
  all_goals simp_wf
  all_goals omega

/-- The list comprehension inside `case_item`: `case_record` on dict
elements, other elements unchanged. -/
def caseList (ct : String) : List Json → Except CaseError (List Json)
  | [] => .ok []
  | e :: rest => do
    let e' ←
      match e with
      | .obj o => case_record (.obj o) ct
      | other => pure other
    let rest' ← caseList ct rest
    pure (e' :: rest')
termination_by l => 2 * sizeOf l
decreasing_by
  all_goals simp_wf
  all_goals omega

/-- `case_item` of `case_avro.py`: validates the case token against
`CASE_TO_FUNC` (raising the unsupported-case error otherwise), then
transforms the entries of the item dict. -/
def case_item (item : Json) (ct : String) : Except CaseError Json :=
  match alookup CASE_TO_FUNC ct with
  | none => .error (.unsupported ct validCaseTokens)
  | some f =>
    match item with
    | .obj pairs => do
      let pairs' ← caseEntries ct f pairs
      pure (Json.obj pairs')
    | _ => .error .typeErr
termination_by 2 * sizeOf item
decreasing_by
  all_goals simp_wf
  all_goals omega

/-- `case_record` of `case_avro.py`: enum documents are returned unchanged;
a document with a truthy `fields` value has each field transformed by
`case_item`; otherwise the whole document goes through `case_item`. -/
def case_record (d : Json) (ct : String) : Except CaseError Json :=
  match d with
  | .obj pairs =>
    if typeIsEnum pairs then .ok (.obj pairs)
    else
      match hf : alookup pairs "fields" with
      | some (.arr (f0 :: fl)) => do
        let fl' ← caseFields ct (f0 :: fl)
        pure (Json.obj (setFields pairs (Json.arr fl')))
      | some fv =>
        if truthy fv then .error .typeErr
        else case_item (.obj pairs) ct
      | none => case_item (.obj pairs) ct
  | _ => .error .typeErr
termination_by 2 * sizeOf d + 1
decreasing_by
  all_goals simp_wf
  all_goals (have h9 := sizeOf_alookup hf; simp at h9 ⊢; omega)

/-- The field list comprehension of `case_record`. -/
def caseFields (ct : String) : List Json → Except CaseError (List Json)
  | [] => .ok []
  | fj :: rest => do
    let f' ← case_item fj ct
    let rest' ← caseFields ct rest
    pure (f' :: rest')
termination_by l => 2 * sizeOf l
decreasing_by
  all_goals simp_wf
  all_goals omega

end

/-- Model of `datetime.date`. -/
structure PyDate where
  year : Int
  month : Int
  day : Int
deriving DecidableEq

/-- Model of `datetime.time`. -/
structure PyTime where
  hour : Int
  minute : Int
  second : Int
  microsecond : Int
deriving DecidableEq

/-- Model of `datetime.datetime`: carries its `.date()` and `.time()`
components. -/
structure PyDatetime where
  date : PyDate
  time : PyTime
deriving DecidableEq

/-- Model of `uuid.UUID`: its 128-bit integer value. -/
structure PyUUID where
  intValue : Nat
deriving DecidableEq

/-- A value that is either text or already of the native type (the
`typing.Union[str, T]` parse types of `dacite_config.py`). -/
inductive StrOr (α : Type) where
  | str (s : String) : StrOr α
  | native (v : α) : StrOr α

/-- The `ValueError("Invalid {target} format: {value}")` raised by the
parse hooks: carries the target type name and the offending value. -/
inductive FormatError where
  | invalidFormat (target : String) (value : String)
deriving DecidableEq

/-- `parse_datetime` of `dacite_config.py`, over an abstract model `p` of
the third-party `dateutil` permissive parser: text is parsed (raising the
invalid-format error on failure), native datetimes pass through. -/
def parse_datetime (p : String → Option PyDatetime) :
    StrOr PyDatetime → Except FormatError PyDatetime
  | .str s =>
    match p s with
    | some d => .ok d
    | none => .error (.invalidFormat "datetime" s)
  | .native v => .ok v

/-- `parse_date` of `dacite_config.py`: same parse, truncated with
`.date()`. -/
def parse_date (p : String → Option PyDatetime) :
    StrOr PyDate → Except FormatError PyDate
  | .str s =>
    match p s with
    | some dt => .ok dt.date
    | none => .error (.invalidFormat "date" s)
  | .native v => .ok v

/-- `parse_time` of `dacite_config.py`: same parse, truncated with
`.time()`. -/
def parse_time (p : String → Option PyDatetime) :
    StrOr PyTime → Except FormatError PyTime
  | .str s =>
    match p s with
    | some dt => .ok dt.time
    | none => .error (.invalidFormat "time" s)
  | .native v => .ok v

/-- `parse_bytes` of `dacite_config.py`: text is UTF-8 encoded, bytes pass
through. -/
def parse_bytes : StrOr (List UInt8) → List UInt8
  | .str s => s.toUTF8.toList
  | .native v => v

/-- `parse_uuid` of `dacite_config.py`, over an abstract model `pu` of the
stdlib `uuid.UUID` constructor on text. -/
def parse_uuid (pu : String → Option PyUUID) :
    StrOr PyUUID → Except FormatError PyUUID
  | .str s =>
    match pu s with
    | some u => .ok u
    | none => .error (.invalidFormat "UUID" s)
  | .native v => .ok v

/-- Entries of the dacite `cast` list.  The three enforced entries model
`typing.Tuple`, `tuple` and `enum.Enum`; `userCast` stands for any
user-supplied cast entry. -/
inductive CastItem where
  | typingTuple : CastItem
  | builtinTuple : CastItem
  | enumEnum : CastItem
  | userCast (n : Nat) : CastItem
deriving DecidableEq

/-- Keys of the dacite `type_hooks` mapping (Python types). -/
inductive HookKey where
  | datetimeKey : HookKey
  | dateKey : HookKey
  | timeKey : HookKey
  | bytesKey : HookKey
  | uuidKey : HookKey
  | userKey (n : Nat) : HookKey
deriving DecidableEq

/-- Values of the dacite `type_hooks` mapping (parse functions). -/
inductive HookTag where
  | parseDatetimeHook : HookTag
  | parseDateHook : HookTag
  | parseTimeHook : HookTag
  | parseBytesHook : HookTag
  | parseUuidHook : HookTag
  | userHook (n : Nat) : HookTag
deriving DecidableEq

/-- Model of `dacite.Config` restricted to the keys `generate_dacite_config`
touches. -/
structure DaciteConfig where
  check_types : Bool
  cast : List CastItem
  forward_references : List (String × String)
  type_hooks : List (HookKey × HookTag)
deriving DecidableEq

/-- A user-supplied `dacite_config` override dict: each key is optional;
a present key replaces the corresponding default wholesale, exactly as
Python `dict.update` does. -/
structure UserDaciteConfig where
  check_types : Option Bool := none
  cast : Option (List CastItem) := none
  forward_references : Option (List (String × String)) := none
  type_hooks : Option (List (HookKey × HookTag)) := none
deriving DecidableEq

/-- The default `type_hooks` dict built by `generate_dacite_config`. -/
def defaultTypeHooks : List (HookKey × HookTag) :=
  [(.datetimeKey, .parseDatetimeHook),
   (.dateKey, .parseDateHook),
   (.timeKey, .parseTimeHook),
   (.bytesKey, .parseBytesHook),
   (.uuidKey, .parseUuidHook)]

/-- `generate_dacite_config` of `dacite_config.py`: the default config dict
(check_types disabled, empty cast list, self forward reference, the five
type hooks) is updated with the user-supplied overrides, then
`typing.Tuple`, `tuple` and `enum.Enum` are appended to the cast list. -/
def generate_dacite_config (klassName : String)
    (user : Option UserDaciteConfig) : DaciteConfig :=
  let base : DaciteConfig :=
    { check_types := false
      cast := []
      forward_references := [(klassName, klassName)]
      type_hooks := defaultTypeHooks }
  let merged : DaciteConfig :=
    match user with
    | none => base
    | some u =>
      { check_types := u.check_types.getD base.check_types
        cast := u.cast.getD base.cast
        forward_references := u.forward_references.getD base.forward_references
        type_hooks := u.type_hooks.getD base.type_hooks }
  { merged with
      cast := merged.cast ++ [CastItem.typingTuple, CastItem.builtinTuple, CastItem.enumEnum] }

/-- The cast list as it stands after the user override is merged, before the
enforced entries are appended. -/
def mergedUserCast : Option UserDaciteConfig → List CastItem
  | none => []
  | some u => u.cast.getD []

/-- Well-formedness hypothesis used by C3: when a `fields` value is present
and truthy, it is a (necessarily non-empty) list — as in any actual Avro
schema document. -/
def fieldsWF (pairs : List (String × Json)) : Prop :=
  ∀ v, alookup pairs "fields" = some v → truthy v = true →
    ∃ a as, v = Json.arr (a :: as)

/-- The record's own `name` string of a schema document. -/
def recordNameOf (j : Json) : Option String :=
  match j with
  | .obj pairs =>
    match alookup pairs "name" with
    | some (.str s) => some s
    | _ => none
  | _ => none

/-- The `name` string of the first field of a schema document. -/
def firstFieldNameOf (j : Json) : Option String :=
  match j with
  | .obj pairs =>
    match alookup pairs "fields" with
    | some (.arr (f :: _)) => recordNameOf f
    | _ => none
  | _ => none

/-- The `name` string of the inline type object of the first field (for a
field whose type is an inline enum definition, its enum name). -/
def firstFieldTypeNameOf (j : Json) : Option String :=
  match j with
  | .obj pairs =>
    match alookup pairs "fields" with
    | some (.arr (f :: _)) =>
      match f with
      | .obj fp =>
        match alookup fp "type" with
        | some t => recordNameOf t
        | _ => none
      | _ => none
    | _ => none
  | _ => none

/-- The concrete scenario document of C9: record `PersonRecord` with one
field `fullName` of type string. -/
def personRecordDoc : Json :=
  .obj [("type", .str "record"), ("name", .str "PersonRecord"),
    ("fields", .arr [.obj [("name", .str "fullName"), ("type", .str "string")]])]

/-- What `case_record` actually produces for `personRecordDoc` under
`snakecase`: the field is renamed, the record's own name is not. -/
def personRecordSnaked : Json :=
  .obj [("type", .str "record"), ("name", .str "PersonRecord"),
    ("fields", .arr [.obj [("name", .str "full_name"), ("type", .str "string")]])]

/-- The C2 scenario document: a record with one field whose type is an
inline enum definition. -/
def enumFieldDoc : Json :=
  .obj [("type", .str "record"), ("name", .str "MyRecord"),
    ("fields", .arr [.obj [("name", .str "favoriteColor"),
      ("type", .obj [("type", .str "enum"), ("name", .str "Color"),
        ("symbols", .arr [.str "RED", .str "GREEN", .str "BLUE"])])]])]

/-- What `case_record` actually produces for `enumFieldDoc` under
`snakecase`: the field key is renamed, the enum definition — its own name
included — is untouched. -/
def enumFieldDocSnaked : Json :=
  .obj [("type", .str "record"), ("name", .str "MyRecord"),
    ("fields", .arr [.obj [("name", .str "favorite_color"),
      ("type", .obj [("type", .str "enum"), ("name", .str "Color"),
        ("symbols", .arr [.str "RED", .str "GREEN", .str "BLUE"])])]])]

/-- The entry list of `enumFieldDoc`, named so the general enum-exemption
theorem can be instantiated on it. -/
def enumFieldDocPairs : List (String × Json) :=
  [("type", .str "record"), ("name", .str "MyRecord"),
   ("fields", .arr [.obj [("name", .str "favoriteColor"),
     ("type", .obj [("type", .str "enum"), ("name", .str "Color"),
       ("symbols", .arr [.str "RED", .str "GREEN", .str "BLUE"])])]])]

/-- The single field item of `enumFieldDoc`. -/
def enumFieldItem : Json :=
  .obj [("name", .str "favoriteColor"),
    ("type", .obj [("type", .str "enum"), ("name", .str "Color"),
      ("symbols", .arr [.str "RED", .str "GREEN", .str "BLUE"])])]

namespace Casefy

/-- A word made of one homogeneous character class. -/
def HomogWord (w : List Char) : Prop :=
  w ≠ [] ∧ (w.all isLow = true ∨ w.all isUp = true ∨ w.all isDig = true)

/-- A list that is empty or starts with a separator character. -/
def SepStart (rest : List Char) : Prop :=
  rest = [] ∨ ∃ r rs, rest = r :: rs
    ∧ isLow r = false ∧ isUp r = false ∧ isDig r = false

/-- The shapes a word emitted by the splitter can have: a lowercase run, an
uppercase run, a digit run, or one uppercase letter followed by a lowercase
run. -/
def ShapedWord (w : List Char) : Prop :=
  w ≠ [] ∧ (w.all isLow = true ∨ w.all isUp = true ∨ w.all isDig = true ∨
    ∃ u t, w = u :: t ∧ isUp u = true ∧ t ≠ [] ∧ t.all isLow = true)

/-- Invariant of the splitter state: the accumulated (reversed) word is
consistent with its kind. -/
def StInv : GWState → Prop
  | none => True
  | some (.low, c0, w) => (c0 :: w).all isLow = true ∨
      ∃ ls u, c0 :: w = ls ++ [u] ∧ ls ≠ [] ∧ ls.all isLow = true ∧ isUp u = true
  | some (.up, c0, w) => (c0 :: w).all isUp = true
  | some (.dig, c0, w) => (c0 :: w).all isDig = true

/-- The characters currently pending in the splitter state, in input order. -/
def stateChars : GWState → List Char
  | none => []
  | some (_, c0, w) => (c0 :: w).reverse

end Casefy

/-- How one pass of the case transformation can change a dict value at a key
other than `name`: scalars are kept verbatim, lists keep their length,
dicts keep their key sequence. -/
def VT : Json → Json → Prop
  | .str s, v' => v' = .str s
  | .num n, v' => v' = .num n
  | .jbool b, v' => v' = .jbool b
  | .null, v' => v' = .null
  | .arr l, v' => ∃ l2, v' = .arr l2 ∧ l2.length = l.length
  | .obj o, v' => ∃ o2, v' = .obj o2 ∧ o2.map Prod.fst = o.map Prod.fst

/-- `VT` lifted to optional lookup results. -/
def OptVT : Option Json → Option Json → Prop
  | none, none => True
  | some v, some v' => VT v v'
  | _, _ => False

/-- The per-entry step of `caseEntries`, factored out for rewriting. -/
def entryStep (ct : String) (f : String → String) (k : String) (v : Json) :
    Except CaseError Json :=
  if k = "name" then
    match v with
    | .str s => pure (Json.str (f s))
    | _ => throw CaseError.nonStringName
  else
    match v with
    | .obj o => if hasKey o "name" then case_record (.obj o) ct else pure (Json.obj o)
    | .arr l => do
      let l' ← caseList ct l
      pure (Json.arr l')
    | other => pure other

/-- Second-pass stability of `caseEntries` up to size `N`. -/
def EntriesIdem (ct : String) (f : String → String) (N : Nat) : Prop :=
  ∀ pairs pairs', 2 * sizeOf pairs ≤ N →
    caseEntries ct f pairs = .ok pairs' →
    caseEntries ct f pairs' = .ok pairs'
      ∧ pairs'.map Prod.fst = pairs.map Prod.fst
      ∧ ∀ k, ¬(k = "name") → OptVT (alookup pairs k) (alookup pairs' k)

/-- Second-pass stability of `caseList` up to size `N`. -/
def ListIdem (ct : String) (N : Nat) : Prop :=
  ∀ l l', 2 * sizeOf l ≤ N → caseList ct l = .ok l' →
    caseList ct l' = .ok l' ∧ l'.length = l.length

/-- Second-pass stability of `case_item` up to size `N`. -/
def ItemIdem (ct : String) (N : Nat) : Prop :=
  ∀ j j', 2 * sizeOf j ≤ N → case_item j ct = .ok j' →
    case_item j' ct = .ok j'
      ∧ ∃ pairs pairs', j = .obj pairs ∧ j' = .obj pairs'
        ∧ pairs'.map Prod.fst = pairs.map Prod.fst
        ∧ ∀ k, ¬(k = "name") → OptVT (alookup pairs k) (alookup pairs' k)

/-- Second-pass stability of `case_record` up to size `N`. -/
def RecordIdem (ct : String) (N : Nat) : Prop :=
  ∀ j j', 2 * sizeOf j + 1 ≤ N → case_record j ct = .ok j' →
    case_record j' ct = .ok j'
      ∧ ∃ pairs pairs', j = .obj pairs ∧ j' = .obj pairs'
        ∧ pairs'.map Prod.fst = pairs.map Prod.fst

/-- Second-pass stability of `caseFields` up to size `N`. -/
def FieldsIdem (ct : String) (N : Nat) : Prop :=
  ∀ l l', 2 * sizeOf l ≤ N → caseFields ct l = .ok l' →
    caseFields ct l' = .ok l' ∧ l'.length = l.length

/-- The ten case tokens whose case functions are idempotent in the casefy
model (all supported tokens except `camelcase` and `pascalcase`). -/
def tenStableTokens : List String :=
  ["capitalcase", "constcase", "lowercase", "pathcase", "snakecase",
   "spinalcase", "upperkebabcase", "trimcase", "uppercase", "alphanumcase"]

/-- The C4 counterexample document: a record with a field named `a_b`. -/
def pascalDoc : Json :=
  .obj [("type", .str "record"), ("name", .str "X"),
    ("fields", .arr [.obj [("name", .str "a_b"), ("type", .str "string")]])]

/-- One `pascalcase` pass over `pascalDoc`: the field becomes `AB`. -/
def pascalDoc1 : Json :=
  .obj [("type", .str "record"), ("name", .str "X"),
    ("fields", .arr [.obj [("name", .str "AB"), ("type", .str "string")]])]

/-- A second `pascalcase` pass: the acronym `AB` collapses to `Ab`. -/
def pascalDoc2 : Json :=
  .obj [("type", .str "record"), ("name", .str "X"),
    ("fields", .arr [.obj [("name", .str "Ab"), ("type", .str "string")]])]

/-- C1: a schema document whose top-level `type` is `"enum"` is returned by
`case_record` completely unmodified — every key and value identical — for
every case token (in particular for every supported case style). -/
theorem C1_enum_unchanged (pairs : List (String × Json)) (ct : String)
    (h : alookup pairs "type" = some (.str ENUM)) :
    case_record (.obj pairs) ct = .ok (.obj pairs) := by
  have he : typeIsEnum pairs = true := by simp [typeIsEnum, h]
  simp [case_record, he]

/-- Witness for C1: a concrete enum document under `snakecase`. -/
theorem C1_enum_unchanged_witness :
    alookup [("type", Json.str "enum"), ("name", Json.str "Suit"),
        ("symbols", Json.arr [Json.str "SPADES", Json.str "HEARTS"])] "type"
      = some (Json.str ENUM) ∧
    case_record (.obj [("type", Json.str "enum"), ("name", Json.str "Suit"),
        ("symbols", Json.arr [Json.str "SPADES", Json.str "HEARTS"])]) "snakecase"
      = .ok (.obj [("type", Json.str "enum"), ("name", Json.str "Suit"),
        ("symbols", Json.arr [Json.str "SPADES", Json.str "HEARTS"])]) :=
  ⟨rfl, C1_enum_unchanged _ "snakecase" rfl⟩

/-- C10: for an enum document, `case_record` returns the document unchanged
without raising any error even when the case token is unsupported: the enum
branch returns before the token check inside `case_item` is reached. -/
theorem C10_enum_skips_token_check (pairs : List (String × Json)) (ct : String)
    (hct : alookup CASE_TO_FUNC ct = none)
    (h : alookup pairs "type" = some (.str ENUM)) :
    case_record (.obj pairs) ct = .ok (.obj pairs) := by
  have he : typeIsEnum pairs = true := by simp [typeIsEnum, h]
  simp [case_record, he]

/-- Witness for C10: the unsupported token `"SCREAMING"` on a concrete enum
document still returns the document unchanged. -/
theorem C10_enum_skips_token_check_witness :
    alookup CASE_TO_FUNC "SCREAMING" = none ∧
    case_record (.obj [("type", Json.str "enum"), ("name", Json.str "Kind"),
        ("symbols", Json.arr [Json.str "A", Json.str "B"])]) "SCREAMING"
      = .ok (.obj [("type", Json.str "enum"), ("name", Json.str "Kind"),
        ("symbols", Json.arr [Json.str "A", Json.str "B"])]) :=
  ⟨rfl, C10_enum_skips_token_check _ "SCREAMING" rfl rfl⟩

/-- C3: for every token outside the supported set and every non-enum schema
document (whose `fields` value, when truthy, is a list), the transformation
fails with the unsupported-case error naming the token and listing the
twelve valid tokens; no document is returned. -/
theorem C3_unsupported_token (ct : String) (pairs : List (String × Json))
    (hct : alookup CASE_TO_FUNC ct = none)
    (hne : typeIsEnum pairs = false)
    (hwf : fieldsWF pairs) :
    case_record (.obj pairs) ct =
      .error (.unsupported ct
        ["camelcase", "capitalcase", "constcase", "lowercase", "pascalcase",
         "pathcase", "snakecase", "spinalcase", "upperkebabcase", "trimcase",
         "uppercase", "alphanumcase"]) := by
  have hv : validCaseTokens =
      ["camelcase", "capitalcase", "constcase", "lowercase", "pascalcase",
       "pathcase", "snakecase", "spinalcase", "upperkebabcase", "trimcase",
       "uppercase", "alphanumcase"] := rfl
  rw [← hv]
  simp only [case_record, hne, Bool.false_eq_true, if_false, case_item, hct]
  split
  next f0 fl heq =>
    have hci : case_item f0 ct = .error (.unsupported ct validCaseTokens) := by
      simp [case_item, hct]
    have hcf : caseFields ct (f0 :: fl) = .error (.unsupported ct validCaseTokens) := by
      simp only [caseFields]
      rw [hci]
      rfl
    rw [hcf]
    rfl
  next fv hnarr heq =>
    have ht : truthy fv = false := by
      by_contra hc
      simp only [Bool.not_eq_false] at hc
      obtain ⟨a, as, hfv⟩ := hwf _ heq hc
      exact hnarr a as hfv
    simp [ht]
  next heq => rfl

/-- Witness for C3: the token `"SCREAMING"` on a concrete record document. -/
theorem C3_unsupported_token_witness :
    alookup CASE_TO_FUNC "SCREAMING" = none ∧
    case_record (.obj [("type", Json.str "record"), ("name", Json.str "Person"),
        ("fields", Json.arr [.obj [("name", Json.str "fullName"),
          ("type", Json.str "string")]])]) "SCREAMING"
      = .error (.unsupported "SCREAMING"
          ["camelcase", "capitalcase", "constcase", "lowercase", "pascalcase",
           "pathcase", "snakecase", "spinalcase", "upperkebabcase", "trimcase",
           "uppercase", "alphanumcase"]) :=
  ⟨rfl, C3_unsupported_token "SCREAMING" _ rfl rfl
    (by
      intro v hv ht
      simp [alookup] at hv
      exact ⟨_, _, hv.symm⟩)⟩

/-- C9 (corrected): the claim predicts record name `person_record`, but the
code never case-transforms the record's own name when the document has a
truthy `fields` list: the actual output keeps `PersonRecord` (the field does
become `full_name`). -/
theorem C9_counterexample :
    case_record personRecordDoc "snakecase" = .ok personRecordSnaked ∧
    recordNameOf personRecordSnaked = some "PersonRecord" ∧
    "PersonRecord" ≠ "person_record" := by
  have h1 : Casefy.snakecase "fullName" = "full_name" := by decide
  refine ⟨?_, by decide, by decide⟩
  simp [personRecordDoc, personRecordSnaked, case_record, typeIsEnum, alookup,
    caseFields, case_item, caseEntries, hasKey, setFields, h1, ENUM]
  rfl

/-- C9 (amended): applying `snakecase` to the `PersonRecord` schema yields
field name `full_name` while the record's own name and every other key and
value stay unchanged. -/
theorem C9_snakecase_scenario :
    case_record personRecordDoc "snakecase" = .ok personRecordSnaked ∧
    firstFieldNameOf personRecordSnaked = some "full_name" ∧
    recordNameOf personRecordSnaked = recordNameOf personRecordDoc := by
  have h1 : Casefy.snakecase "fullName" = "full_name" := by decide
  refine ⟨?_, by decide, by decide⟩
  simp [personRecordDoc, personRecordSnaked, case_record, typeIsEnum, alookup,
    caseFields, case_item, caseEntries, hasKey, setFields, h1, ENUM]
  rfl

/-- C2 (corrected): the claim predicts the enum's own name is transformed as
dictated by the style; under `snakecase` that would turn `Color` into
`color`, but the enum branch of `case_record` returns the whole enum
definition unchanged, so the actual output keeps `Color`. -/
theorem C2_counterexample :
    case_record enumFieldDoc "snakecase" = .ok enumFieldDocSnaked ∧
    firstFieldTypeNameOf enumFieldDocSnaked = some "Color" ∧
    Casefy.snakecase "Color" = "color" ∧
    "Color" ≠ "color" := by
  have h1 : Casefy.snakecase "favoriteColor" = "favorite_color" := by decide
  refine ⟨?_, by decide, by decide, by decide⟩
  simp [enumFieldDoc, enumFieldDocSnaked, case_record, typeIsEnum, alookup,
    caseFields, case_item, caseEntries, hasKey, setFields, h1, ENUM]
  rfl

/-- C5 (corrected): the claim says `check_types` is `False` for every model
even with user-supplied overrides; but `dict.update` lets a user override
set `check_types` to `True`.  Counterexample: a user config carrying
`check_types: True` yields a config whose check-types flag is enabled. -/
theorem C5_counterexample :
    (generate_dacite_config "MyModel"
        (some { check_types := some true })).check_types = true := rfl

/-- C5 (amended): for every model, the check-types flag of the generated
coercion configuration is `False` whenever the user-supplied override does
not itself carry a `check_types` key. -/
theorem C5_check_types_false (klassName : String) (user : Option UserDaciteConfig)
    (h : ∀ u, user = some u → u.check_types = none) :
    (generate_dacite_config klassName user).check_types = false := by
  cases user with
  | none => rfl
  | some u =>
    have hu := h u rfl
    simp [generate_dacite_config, hu]

/-- Witness for C5: a model with no user override has check-types disabled. -/
theorem C5_check_types_false_witness :
    (generate_dacite_config "Person" none).check_types = false :=
  C5_check_types_false "Person" none (by intro u h; cases h)

/-- C6: for every model and every user-supplied override (including one that
replaces the cast list), the cast list of the generated configuration is the
merged user cast list with the tuple and enum cast rules appended after it. -/
theorem C6_cast_enforced (klassName : String) (user : Option UserDaciteConfig) :
    (generate_dacite_config klassName user).cast =
      mergedUserCast user
        ++ [CastItem.typingTuple, CastItem.builtinTuple, CastItem.enumEnum] := by
  cases user with
  | none => rfl
  | some u => simp [generate_dacite_config, mergedUserCast]

/-- C7: the datetime and UUID hooks parse every string input (returning the
parsed native value, or failing with the invalid-format error that names the
offending value and the target type), and pass native inputs through
unchanged, for every model of the underlying parsers. -/
theorem C7_datetime_uuid_hooks (p : String → Option PyDatetime)
    (pu : String → Option PyUUID) :
    (∀ s : String,
        (∃ d, p s = some d ∧ parse_datetime p (.str s) = .ok d) ∨
        (p s = none ∧
          parse_datetime p (.str s) = .error (.invalidFormat "datetime" s))) ∧
    (∀ d : PyDatetime, parse_datetime p (.native d) = .ok d) ∧
    (∀ s : String,
        (∃ u, pu s = some u ∧ parse_uuid pu (.str s) = .ok u) ∨
        (pu s = none ∧
          parse_uuid pu (.str s) = .error (.invalidFormat "UUID" s))) ∧
    (∀ u : PyUUID, parse_uuid pu (.native u) = .ok u) := by
  refine ⟨fun s => ?_, fun d => rfl, fun s => ?_, fun u => rfl⟩
  · cases hp : p s with
    | some d => exact .inl ⟨d, rfl, by simp [parse_datetime, hp]⟩
    | none => exact .inr ⟨rfl, by simp [parse_datetime, hp]⟩
  · cases hp : pu s with
    | some u => exact .inl ⟨u, rfl, by simp [parse_uuid, hp]⟩
    | none => exact .inr ⟨rfl, by simp [parse_uuid, hp]⟩

/-- C8: on string inputs, the date hook returns exactly the date component
of the parsed datetime and the time hook exactly its time component, and
both fail on exactly the strings on which the datetime parse fails. -/
theorem C8_date_time_truncation (p : String → Option PyDatetime) (s : String) :
    (∀ dt, parse_datetime p (.str s) = .ok dt →
        parse_date p (.str s) = .ok dt.date ∧
        parse_time p (.str s) = .ok dt.time) ∧
    ((∃ e, parse_datetime p (.str s) = .error e) ↔
        (∃ e, parse_date p (.str s) = .error e)) ∧
    ((∃ e, parse_datetime p (.str s) = .error e) ↔
        (∃ e, parse_time p (.str s) = .error e)) := by
  cases hp : p s with
  | some d =>
    refine ⟨fun dt hdt => ?_, ?_, ?_⟩
    · simp [parse_datetime, hp] at hdt
      subst hdt
      simp [parse_date, parse_time, hp]
    · simp [parse_datetime, parse_date, hp]
    · simp [parse_datetime, parse_time, hp]
  | none =>
    refine ⟨fun dt hdt => ?_, ?_, ?_⟩
    · simp [parse_datetime, hp] at hdt
    · simp [parse_datetime, parse_date, hp]
    · simp [parse_datetime, parse_time, hp]

/-- Witness for C8: a parser that always returns a fixed datetime, applied
at a concrete string. -/
theorem C8_date_time_truncation_witness :
    parse_date (fun _ => some ⟨⟨2020, 1, 2⟩, ⟨3, 4, 5, 6⟩⟩) (.str "t")
        = .ok ⟨2020, 1, 2⟩ ∧
    parse_time (fun _ => some ⟨⟨2020, 1, 2⟩, ⟨3, 4, 5, 6⟩⟩) (.str "t")
        = .ok ⟨3, 4, 5, 6⟩ :=
  (C8_date_time_truncation (fun _ => some ⟨⟨2020, 1, 2⟩, ⟨3, 4, 5, 6⟩⟩) "t").1
    ⟨⟨2020, 1, 2⟩, ⟨3, 4, 5, 6⟩⟩ rfl

namespace Casefy

theorem toNat_ofNat_small {n : Nat} (h : n < 55296) : (Char.ofNat n).toNat = n := by
  unfold Char.ofNat
  rw [dif_pos (Or.inl h)]
  rfl

theorem isUp_iff {c : Char} : isUp c = true ↔ 65 ≤ c.toNat ∧ c.toNat ≤ 90 := by
  simp [isUp]

theorem isLow_iff {c : Char} : isLow c = true ↔ 97 ≤ c.toNat ∧ c.toNat ≤ 122 := by
  simp [isLow]

theorem isDig_iff {c : Char} : isDig c = true ↔ 48 ≤ c.toNat ∧ c.toNat ≤ 57 := by
  simp [isDig]

theorem toNat_toLow_of_isUp {c : Char} (h : isUp c = true) :
    (toLow c).toNat = c.toNat + 32 := by
  rw [toLow, if_pos h]
  have := isUp_iff.mp h
  exact toNat_ofNat_small (by omega)

theorem toLow_of_not_isUp {c : Char} (h : isUp c = false) : toLow c = c := by
  rw [toLow, h]
  simp

theorem toNat_toUp_of_isLow {c : Char} (h : isLow c = true) :
    (toUp c).toNat = c.toNat - 32 := by
  rw [toUp, if_pos h]
  have := isLow_iff.mp h
  exact toNat_ofNat_small (by omega)

theorem toUp_of_not_isLow {c : Char} (h : isLow c = false) : toUp c = c := by
  rw [toUp, h]
  simp

theorem isLow_toLow_of_isUp {c : Char} (h : isUp c = true) :
    isLow (toLow c) = true := by
  have h1 := toNat_toLow_of_isUp h
  have h2 := isUp_iff.mp h
  rw [isLow_iff, h1]
  omega

theorem isUp_toLow (c : Char) : isUp (toLow c) = false := by
  by_cases h : isUp c
  · have h1 := toNat_toLow_of_isUp h
    have h2 := isUp_iff.mp h
    rw [← Bool.not_eq_true, isUp_iff, h1]
    omega
  · rw [toLow_of_not_isUp (by simpa using h)]
    simpa using h

theorem isUp_toUp_of_isLow {c : Char} (h : isLow c = true) :
    isUp (toUp c) = true := by
  have h1 := toNat_toUp_of_isLow h
  have h2 := isLow_iff.mp h
  rw [isUp_iff, h1]
  omega

theorem isLow_toUp (c : Char) : isLow (toUp c) = false := by
  by_cases h : isLow c
  · have h1 := toNat_toUp_of_isLow h
    have h2 := isLow_iff.mp h
    rw [← Bool.not_eq_true, isLow_iff, h1]
    omega
  · rw [toUp_of_not_isLow (by simpa using h)]
    simpa using h

theorem toLow_toLow (c : Char) : toLow (toLow c) = toLow c :=
  toLow_of_not_isUp (isUp_toLow c)

theorem toUp_toUp (c : Char) : toUp (toUp c) = toUp c :=
  toUp_of_not_isLow (isLow_toUp c)

theorem isDig_toLow (c : Char) : isDig (toLow c) = isDig c := by
  by_cases h : isUp c
  · have h1 := toNat_toLow_of_isUp h
    have h2 := isUp_iff.mp h
    have hd1 : isDig (toLow c) = false := by
      rw [← Bool.not_eq_true, isDig_iff, h1]
      omega
    have hd2 : isDig c = false := by
      rw [← Bool.not_eq_true, isDig_iff]
      omega
    rw [hd1, hd2]
  · rw [toLow_of_not_isUp (by simpa using h)]

theorem isDig_toUp (c : Char) : isDig (toUp c) = isDig c := by
  by_cases h : isLow c
  · have h1 := toNat_toUp_of_isLow h
    have h2 := isLow_iff.mp h
    have hd1 : isDig (toUp c) = false := by
      rw [← Bool.not_eq_true, isDig_iff, h1]
      omega
    have hd2 : isDig c = false := by
      rw [← Bool.not_eq_true, isDig_iff]
      omega
    rw [hd1, hd2]
  · rw [toUp_of_not_isLow (by simpa using h)]

theorem toLow_of_isLow {c : Char} (h : isLow c = true) : toLow c = c := by
  refine toLow_of_not_isUp ?_
  have h2 := isLow_iff.mp h
  rw [← Bool.not_eq_true, isUp_iff]
  omega

theorem toLow_of_isDig {c : Char} (h : isDig c = true) : toLow c = c := by
  refine toLow_of_not_isUp ?_
  have h2 := isDig_iff.mp h
  rw [← Bool.not_eq_true, isUp_iff]
  omega

theorem toUp_of_isUp {c : Char} (h : isUp c = true) : toUp c = c := by
  refine toUp_of_not_isLow ?_
  have h2 := isUp_iff.mp h
  rw [← Bool.not_eq_true, isLow_iff]
  omega

theorem toUp_of_isDig {c : Char} (h : isDig c = true) : toUp c = c := by
  refine toUp_of_not_isLow ?_
  have h2 := isDig_iff.mp h
  rw [← Bool.not_eq_true, isLow_iff]
  omega

theorem isAlnum_toLow (c : Char) : isAlnum (toLow c) = isAlnum c := by
  by_cases h : isUp c
  · have h1 := isLow_toLow_of_isUp h
    simp [isAlnum, h1, h]
  · rw [toLow_of_not_isUp (by simpa using h)]

theorem isAlnum_toUp (c : Char) : isAlnum (toUp c) = isAlnum c := by
  by_cases h : isLow c
  · have h1 := isUp_toUp_of_isLow h
    simp [isAlnum, h1, h]
  · rw [toUp_of_not_isLow (by simpa using h)]

end Casefy

namespace Casefy

theorem not_isLow_of_isUp {c : Char} (h : isUp c = true) : isLow c = false := by
  have := isUp_iff.mp h
  rw [← Bool.not_eq_true, isLow_iff]
  omega

theorem not_isUp_of_isLow {c : Char} (h : isLow c = true) : isUp c = false := by
  have := isLow_iff.mp h
  rw [← Bool.not_eq_true, isUp_iff]
  omega

theorem not_isLow_of_isDig {c : Char} (h : isDig c = true) : isLow c = false := by
  have := isDig_iff.mp h
  rw [← Bool.not_eq_true, isLow_iff]
  omega

theorem not_isUp_of_isDig {c : Char} (h : isDig c = true) : isUp c = false := by
  have := isDig_iff.mp h
  rw [← Bool.not_eq_true, isUp_iff]
  omega

theorem not_isDig_of_isLow {c : Char} (h : isLow c = true) : isDig c = false := by
  have := isLow_iff.mp h
  rw [← Bool.not_eq_true, isDig_iff]
  omega

theorem not_isDig_of_isUp {c : Char} (h : isUp c = true) : isDig c = false := by
  have := isUp_iff.mp h
  rw [← Bool.not_eq_true, isDig_iff]
  omega

theorem gw_start_low {c : Char} (h : isLow c = true) (cs : List Char) :
    gwGo none (c :: cs) = gwGo (some (.low, c, [])) cs := by
  simp [gwGo, h]

theorem gw_start_up {c : Char} (h : isUp c = true) (cs : List Char) :
    gwGo none (c :: cs) = gwGo (some (.up, c, [])) cs := by
  simp [gwGo, not_isLow_of_isUp h, h]

theorem gw_start_dig {c : Char} (h : isDig c = true) (cs : List Char) :
    gwGo none (c :: cs) = gwGo (some (.dig, c, [])) cs := by
  simp [gwGo, not_isLow_of_isDig h, not_isUp_of_isDig h, h]

theorem gw_sep_none {c : Char} (hl : isLow c = false) (hu : isUp c = false)
    (hd : isDig c = false) (cs : List Char) :
    gwGo none (c :: cs) = gwGo none cs := by
  simp [gwGo, hl, hu, hd, flushW]

theorem gw_sep_state {k : WK} {c0 : Char} {acc : List Char} {c : Char}
    (hl : isLow c = false) (hu : isUp c = false) (hd : isDig c = false)
    (cs : List Char) :
    gwGo (some (k, c0, acc)) (c :: cs)
      = (c0 :: acc).reverse :: gwGo none cs := by
  simp [gwGo, hl, hu, hd, flushW]

theorem gw_absorb_low : ∀ (w : List Char), w.all isLow = true →
    ∀ (c0 : Char) (acc rest : List Char),
    ∃ c1 acc1,
      gwGo (some (.low, c0, acc)) (w ++ rest) = gwGo (some (.low, c1, acc1)) rest
        ∧ (c1 :: acc1).reverse = (c0 :: acc).reverse ++ w := by
  intro w
  induction w with
  | nil => exact fun _ c0 acc rest => ⟨c0, acc, by simp, by simp⟩
  | cons c w ih =>
    intro hall c0 acc rest
    simp only [List.all_cons, Bool.and_eq_true] at hall
    obtain ⟨hc, hw⟩ := hall
    obtain ⟨c1, acc1, heq, hword⟩ := ih hw c (c0 :: acc) rest
    refine ⟨c1, acc1, ?_, ?_⟩
    · rw [List.cons_append,
        show gwGo (some (.low, c0, acc)) (c :: (w ++ rest))
            = gwGo (some (.low, c, c0 :: acc)) (w ++ rest) by simp [gwGo, hc]]
      exact heq
    · rw [hword]
      simp

theorem gw_absorb_up : ∀ (w : List Char), w.all isUp = true →
    ∀ (c0 : Char) (acc rest : List Char),
    ∃ c1 acc1,
      gwGo (some (.up, c0, acc)) (w ++ rest) = gwGo (some (.up, c1, acc1)) rest
        ∧ (c1 :: acc1).reverse = (c0 :: acc).reverse ++ w := by
  intro w
  induction w with
  | nil => exact fun _ c0 acc rest => ⟨c0, acc, by simp, by simp⟩
  | cons c w ih =>
    intro hall c0 acc rest
    simp only [List.all_cons, Bool.and_eq_true] at hall
    obtain ⟨hc, hw⟩ := hall
    obtain ⟨c1, acc1, heq, hword⟩ := ih hw c (c0 :: acc) rest
    refine ⟨c1, acc1, ?_, ?_⟩
    · rw [List.cons_append,
        show gwGo (some (.up, c0, acc)) (c :: (w ++ rest))
            = gwGo (some (.up, c, c0 :: acc)) (w ++ rest) by
          simp [gwGo, not_isLow_of_isUp hc, hc]]
      exact heq
    · rw [hword]
      simp

theorem gw_absorb_dig : ∀ (w : List Char), w.all isDig = true →
    ∀ (c0 : Char) (acc rest : List Char),
    ∃ c1 acc1,
      gwGo (some (.dig, c0, acc)) (w ++ rest) = gwGo (some (.dig, c1, acc1)) rest
        ∧ (c1 :: acc1).reverse = (c0 :: acc).reverse ++ w := by
  intro w
  induction w with
  | nil => exact fun _ c0 acc rest => ⟨c0, acc, by simp, by simp⟩
  | cons c w ih =>
    intro hall c0 acc rest
    simp only [List.all_cons, Bool.and_eq_true] at hall
    obtain ⟨hc, hw⟩ := hall
    obtain ⟨c1, acc1, heq, hword⟩ := ih hw c (c0 :: acc) rest
    refine ⟨c1, acc1, ?_, ?_⟩
    · rw [List.cons_append,
        show gwGo (some (.dig, c0, acc)) (c :: (w ++ rest))
            = gwGo (some (.dig, c, c0 :: acc)) (w ++ rest) by
          simp [gwGo, not_isLow_of_isDig hc, not_isUp_of_isDig hc, hc]]
      exact heq
    · rw [hword]
      simp

theorem gw_homog_prefix {w : List Char} (hw : HomogWord w) {rest : List Char}
    (hrest : SepStart rest) :
    gwGo none (w ++ rest) = w :: gwGo none rest := by
  obtain ⟨hne, hkind⟩ := hw
  obtain ⟨c, w', rfl⟩ := List.exists_cons_of_ne_nil hne
  have finish : ∀ st : GWState,
      (∀ r rs, rest = r :: rs → isLow r = false → isUp r = false → isDig r = false →
        gwGo st rest = (c :: w') :: gwGo none rest) →
      (rest = [] → gwGo st rest = [c :: w']) →
      gwGo st rest = (c :: w') :: gwGo none rest := by
    intro st h1 h2
    rcases hrest with h | ⟨r, rs, rfl, hl, hu, hd⟩
    · subst h
      rw [h2 rfl]
      rfl
    · exact h1 r rs rfl hl hu hd
  rcases hkind with hk | hk | hk
  · simp only [List.all_cons, Bool.and_eq_true] at hk
    obtain ⟨hc, hw'⟩ := hk
    rw [List.cons_append, show gwGo none (c :: (w' ++ rest))
        = gwGo (some (.low, c, [])) (w' ++ rest) from gw_start_low hc _]
    obtain ⟨c1, acc1, heq, hword⟩ := gw_absorb_low w' hw' c [] rest
    rw [heq]
    have hword' : (c1 :: acc1).reverse = c :: w' := by
      rw [hword]
      simp
    refine finish _ (fun r rs hr hl hu hd => ?_) (fun hr => ?_)
    · subst hr
      rw [gw_sep_state hl hu hd, hword', gw_sep_none hl hu hd]
    · subst hr
      rw [show gwGo (some (.low, c1, acc1)) [] = [(c1 :: acc1).reverse] from rfl,
        hword']
  · simp only [List.all_cons, Bool.and_eq_true] at hk
    obtain ⟨hc, hw'⟩ := hk
    rw [List.cons_append, show gwGo none (c :: (w' ++ rest))
        = gwGo (some (.up, c, [])) (w' ++ rest) from gw_start_up hc _]
    obtain ⟨c1, acc1, heq, hword⟩ := gw_absorb_up w' hw' c [] rest
    rw [heq]
    have hword' : (c1 :: acc1).reverse = c :: w' := by
      rw [hword]
      simp
    refine finish _ (fun r rs hr hl hu hd => ?_) (fun hr => ?_)
    · subst hr
      rw [gw_sep_state hl hu hd, hword', gw_sep_none hl hu hd]
    · subst hr
      rw [show gwGo (some (.up, c1, acc1)) [] = [(c1 :: acc1).reverse] from rfl,
        hword']
  · simp only [List.all_cons, Bool.and_eq_true] at hk
    obtain ⟨hc, hw'⟩ := hk
    rw [List.cons_append, show gwGo none (c :: (w' ++ rest))
        = gwGo (some (.dig, c, [])) (w' ++ rest) from gw_start_dig hc _]
    obtain ⟨c1, acc1, heq, hword⟩ := gw_absorb_dig w' hw' c [] rest
    rw [heq]
    have hword' : (c1 :: acc1).reverse = c :: w' := by
      rw [hword]
      simp
    refine finish _ (fun r rs hr hl hu hd => ?_) (fun hr => ?_)
    · subst hr
      rw [gw_sep_state hl hu hd, hword', gw_sep_none hl hu hd]
    · subst hr
      rw [show gwGo (some (.dig, c1, acc1)) [] = [(c1 :: acc1).reverse] from rfl,
        hword']

theorem gw_joinSep {sep : Char} (hl : isLow sep = false) (hu : isUp sep = false)
    (hd : isDig sep = false) :
    ∀ ws : List (List Char), (∀ w ∈ ws, HomogWord w) →
    gwGo none (joinSep sep ws) = ws := by
  intro ws
  induction ws with
  | nil => intro _; rfl
  | cons w ws ih =>
    intro hall
    cases ws with
    | nil =>
      have hw := hall w (by simp)
      have hpre : gwGo none (w ++ []) = w :: gwGo none [] :=
        gw_homog_prefix hw (Or.inl rfl)
      simpa [joinSep] using hpre
    | cons w2 ws2 =>
      have hw := hall w (by simp)
      have hrest : SepStart (sep :: joinSep sep (w2 :: ws2)) :=
        Or.inr ⟨sep, _, rfl, hl, hu, hd⟩
      rw [joinSep, gw_homog_prefix hw hrest, gw_sep_none hl hu hd,
        ih (fun x hx => hall x (by simp [hx]))]

end Casefy

namespace Casefy

theorem flush_shape {k : WK} {c0 : Char} {w : List Char}
    (h : StInv (some (k, c0, w))) : ShapedWord ((c0 :: w).reverse) := by
  cases k with
  | low =>
    simp only [StInv] at h
    rcases h with h | ⟨ls, u, heq, hne, hls, hu⟩
    · refine ⟨by simp, Or.inl ?_⟩
      rw [List.all_reverse]
      exact h
    · refine ⟨by simp, Or.inr (Or.inr (Or.inr ⟨u, ls.reverse, ?_, hu, ?_, ?_⟩))⟩
      · rw [heq]
        simp
      · simp only [ne_eq, List.reverse_eq_nil_iff]
        exact hne
      · rw [List.all_reverse]
        exact hls
  | up =>
    simp only [StInv] at h
    refine ⟨by simp, Or.inr (Or.inl ?_)⟩
    rw [List.all_reverse]
    exact h
  | dig =>
    simp only [StInv] at h
    refine ⟨by simp, Or.inr (Or.inr (Or.inl ?_))⟩
    rw [List.all_reverse]
    exact h

theorem shaped_flush {k : WK} {c0 : Char} {acc : List Char}
    (hinv : StInv (some (k, c0, acc))) : ShapedWord (acc.reverse ++ [c0]) := by
  have h := flush_shape hinv
  rwa [List.reverse_cons] at h

theorem gw_shape : ∀ (l : List Char) (cur : GWState), StInv cur →
    ∀ w ∈ gwGo cur l, ShapedWord w := by
  intro l
  induction l with
  | nil =>
    intro cur hinv w hw
    rcases cur with _ | ⟨k, c0, acc⟩
    · simp [gwGo, flushW] at hw
    · simp [gwGo, flushW] at hw
      subst hw
      exact shaped_flush hinv
  | cons c cs ih =>
    intro cur hinv
    by_cases hlo : isLow c = true
    · rcases cur with _ | ⟨k, c0, acc⟩
      · rw [gw_start_low hlo]
        refine ih _ ?_
        simp only [StInv, List.all_cons, List.all_nil, Bool.and_true]
        exact Or.inl hlo
      · cases k with
        | low =>
          rw [show gwGo (some (.low, c0, acc)) (c :: cs)
              = gwGo (some (.low, c, c0 :: acc)) cs by simp [gwGo, hlo]]
          refine ih _ ?_
          simp only [StInv] at hinv ⊢
          rcases hinv with h | ⟨ls, u, heq, hne, hls, hu⟩
          · refine Or.inl ?_
            simp only [List.all_cons, Bool.and_eq_true] at h ⊢
            exact ⟨hlo, h⟩
          · refine Or.inr ⟨c :: ls, u, ?_, by simp, ?_, hu⟩
            · rw [List.cons_append, ← heq]
            · simp only [List.all_cons, Bool.and_eq_true] at hls ⊢
              exact ⟨hlo, hls⟩
        | up =>
          simp only [StInv] at hinv
          rcases acc with _ | ⟨u1, us⟩
          · rw [show gwGo (some (.up, c0, [])) (c :: cs)
                = gwGo (some (.low, c, [c0])) cs by simp [gwGo, hlo]]
            refine ih _ ?_
            simp only [StInv]
            refine Or.inr ⟨[c], c0, rfl, by simp, by simp [hlo], ?_⟩
            simpa using hinv
          · rw [show gwGo (some (.up, c0, u1 :: us)) (c :: cs)
                = (u1 :: us).reverse :: gwGo (some (.low, c, [c0])) cs by
              simp [gwGo, hlo]]
            simp only [List.all_cons, Bool.and_eq_true] at hinv
            intro w hw
            rcases List.mem_cons.mp hw with rfl | hw
            · have hst : StInv (some (.up, u1, us)) := by
                simp only [StInv, List.all_cons, Bool.and_eq_true]
                exact hinv.2
              exact flush_shape hst
            · refine ih _ ?_ w hw
              simp only [StInv]
              exact Or.inr ⟨[c], c0, rfl, by simp, by simp [hlo], hinv.1⟩
        | dig =>
          rw [show gwGo (some (.dig, c0, acc)) (c :: cs)
              = (c0 :: acc).reverse :: gwGo (some (.low, c, [])) cs by
            simp [gwGo, hlo]]
          intro w hw
          rcases List.mem_cons.mp hw with rfl | hw
          · exact flush_shape hinv
          · refine ih _ ?_ w hw
            simp only [StInv, List.all_cons, List.all_nil, Bool.and_true]
            exact Or.inl hlo
    · by_cases hup : isUp c = true
      · rcases cur with _ | ⟨k, c0, acc⟩
        · rw [gw_start_up hup]
          refine ih _ ?_
          simp only [StInv, List.all_cons, List.all_nil, Bool.and_true]
          exact hup
        · cases k with
          | up =>
            rw [show gwGo (some (.up, c0, acc)) (c :: cs)
                = gwGo (some (.up, c, c0 :: acc)) cs by simp [gwGo, hlo, hup]]
            refine ih _ ?_
            simp only [StInv, List.all_cons, Bool.and_eq_true] at hinv ⊢
            exact ⟨hup, hinv⟩
          | low =>
            rw [show gwGo (some (.low, c0, acc)) (c :: cs)
                = (c0 :: acc).reverse :: gwGo (some (.up, c, [])) cs by
              simp [gwGo, hlo, hup]]
            intro w hw
            rcases List.mem_cons.mp hw with rfl | hw
            · exact flush_shape hinv
            · refine ih _ ?_ w hw
              simp only [StInv, List.all_cons, List.all_nil, Bool.and_true]
              exact hup
          | dig =>
            rw [show gwGo (some (.dig, c0, acc)) (c :: cs)
                = (c0 :: acc).reverse :: gwGo (some (.up, c, [])) cs by
              simp [gwGo, hlo, hup]]
            intro w hw
            rcases List.mem_cons.mp hw with rfl | hw
            · exact flush_shape hinv
            · refine ih _ ?_ w hw
              simp only [StInv, List.all_cons, List.all_nil, Bool.and_true]
              exact hup
      · by_cases hdg : isDig c = true
        · rcases cur with _ | ⟨k, c0, acc⟩
          · rw [gw_start_dig hdg]
            refine ih _ ?_
            simp only [StInv, List.all_cons, List.all_nil, Bool.and_true]
            exact hdg
          · cases k with
            | dig =>
              rw [show gwGo (some (.dig, c0, acc)) (c :: cs)
                  = gwGo (some (.dig, c, c0 :: acc)) cs by
                simp [gwGo, hlo, hup, hdg]]
              refine ih _ ?_
              simp only [StInv, List.all_cons, Bool.and_eq_true] at hinv ⊢
              exact ⟨hdg, hinv⟩
            | low =>
              rw [show gwGo (some (.low, c0, acc)) (c :: cs)
                  = (c0 :: acc).reverse :: gwGo (some (.dig, c, [])) cs by
                simp [gwGo, hlo, hup, hdg]]
              intro w hw
              rcases List.mem_cons.mp hw with rfl | hw
              · exact flush_shape hinv
              · refine ih _ ?_ w hw
                simp only [StInv, List.all_cons, List.all_nil, Bool.and_true]
                exact hdg
            | up =>
              rw [show gwGo (some (.up, c0, acc)) (c :: cs)
                  = (c0 :: acc).reverse :: gwGo (some (.dig, c, [])) cs by
                simp [gwGo, hlo, hup, hdg]]
              intro w hw
              rcases List.mem_cons.mp hw with rfl | hw
              · exact flush_shape hinv
              · refine ih _ ?_ w hw
                simp only [StInv, List.all_cons, List.all_nil, Bool.and_true]
                exact hdg
        · have hlo' : isLow c = false := by simpa using hlo
          have hup' : isUp c = false := by simpa using hup
          have hdg' : isDig c = false := by simpa using hdg
          rcases cur with _ | ⟨k, c0, acc⟩
          · rw [gw_sep_none hlo' hup' hdg']
            exact ih none (by simp [StInv])
          · rw [gw_sep_state hlo' hup' hdg']
            intro w hw
            rcases List.mem_cons.mp hw with rfl | hw
            · exact flush_shape hinv
            · exact ih none (by simp [StInv]) w hw

theorem getWords_shape (s : String) : ∀ w ∈ getWords s, ShapedWord w :=
  gw_shape s.data none (by simp [StInv])

theorem homog_lowerW {w : List Char} (h : ShapedWord w) : HomogWord (lowerW w) := by
  obtain ⟨hne, hk⟩ := h
  refine ⟨by simpa [lowerW] using hne, ?_⟩
  rcases hk with hk | hk | hk | ⟨u, t, rfl, hu, htne, ht⟩
  · refine Or.inl ?_
    simp only [lowerW, List.all_map, List.all_eq_true, Function.comp] at hk ⊢
    intro c hc
    rw [toLow_of_isLow (hk c hc)]
    exact hk c hc
  · refine Or.inl ?_
    simp only [lowerW, List.all_map, List.all_eq_true, Function.comp] at hk ⊢
    intro c hc
    exact isLow_toLow_of_isUp (hk c hc)
  · refine Or.inr (Or.inr ?_)
    simp only [lowerW, List.all_map, List.all_eq_true, Function.comp] at hk ⊢
    intro c hc
    rw [toLow_of_isDig (hk c hc)]
    exact hk c hc
  · refine Or.inl ?_
    simp only [lowerW, List.map_cons, List.all_cons, Bool.and_eq_true]
    refine ⟨isLow_toLow_of_isUp hu, ?_⟩
    simp only [List.all_map, List.all_eq_true, Function.comp]
    intro c hc
    have := List.all_eq_true.mp ht c hc
    rw [toLow_of_isLow this]
    exact this

theorem homog_upperW {w : List Char} (h : ShapedWord w) : HomogWord (upperW w) := by
  obtain ⟨hne, hk⟩ := h
  refine ⟨by simpa [upperW] using hne, ?_⟩
  rcases hk with hk | hk | hk | ⟨u, t, rfl, hu, htne, ht⟩
  · refine Or.inr (Or.inl ?_)
    simp only [upperW, List.all_map, List.all_eq_true, Function.comp] at hk ⊢
    intro c hc
    exact isUp_toUp_of_isLow (hk c hc)
  · refine Or.inr (Or.inl ?_)
    simp only [upperW, List.all_map, List.all_eq_true, Function.comp] at hk ⊢
    intro c hc
    rw [toUp_of_isUp (hk c hc)]
    exact hk c hc
  · refine Or.inr (Or.inr ?_)
    simp only [upperW, List.all_map, List.all_eq_true, Function.comp] at hk ⊢
    intro c hc
    rw [toUp_of_isDig (hk c hc)]
    exact hk c hc
  · refine Or.inr (Or.inl ?_)
    simp only [upperW, List.map_cons, List.all_cons, Bool.and_eq_true]
    refine ⟨by rw [toUp_of_isUp hu]; exact hu, ?_⟩
    simp only [List.all_map, List.all_eq_true, Function.comp]
    intro c hc
    have := List.all_eq_true.mp ht c hc
    exact isUp_toUp_of_isLow this

theorem lowerW_idem (w : List Char) : lowerW (lowerW w) = lowerW w := by
  simp only [lowerW, List.map_map]
  exact List.map_congr_left (fun c _ => by simp [Function.comp, toLow_toLow])

theorem upperW_idem (w : List Char) : upperW (upperW w) = upperW w := by
  simp only [upperW, List.map_map]
  exact List.map_congr_left (fun c _ => by simp [Function.comp, toUp_toUp])

end Casefy

namespace Casefy

theorem getWords_joinSep_lowerW {sep : Char} (hl : isLow sep = false)
    (hu : isUp sep = false) (hd : isDig sep = false) (s : String) :
    getWords ⟨joinSep sep ((getWords s).map lowerW)⟩
      = (getWords s).map lowerW := by
  refine gw_joinSep hl hu hd _ ?_
  intro w hw
  obtain ⟨w0, hw0, rfl⟩ := List.mem_map.mp hw
  exact homog_lowerW (getWords_shape s w0 hw0)

theorem getWords_joinSep_upperW {sep : Char} (hl : isLow sep = false)
    (hu : isUp sep = false) (hd : isDig sep = false) (s : String) :
    getWords ⟨joinSep sep ((getWords s).map upperW)⟩
      = (getWords s).map upperW := by
  refine gw_joinSep hl hu hd _ ?_
  intro w hw
  obtain ⟨w0, hw0, rfl⟩ := List.mem_map.mp hw
  exact homog_upperW (getWords_shape s w0 hw0)

theorem snakecase_idem (s : String) : snakecase (snakecase s) = snakecase s := by
  show (⟨joinSep '_' ((getWords (snakecase s)).map lowerW)⟩ : String) = _
  rw [show getWords (snakecase s) = (getWords s).map lowerW from
    getWords_joinSep_lowerW (by decide) (by decide) (by decide) s]
  unfold snakecase
  rw [List.map_map]
  congr 2
  exact List.map_congr_left fun w _ => lowerW_idem w

theorem kebabcase_idem (s : String) : kebabcase (kebabcase s) = kebabcase s := by
  show (⟨joinSep '-' ((getWords (kebabcase s)).map lowerW)⟩ : String) = _
  rw [show getWords (kebabcase s) = (getWords s).map lowerW from
    getWords_joinSep_lowerW (by decide) (by decide) (by decide) s]
  unfold kebabcase
  rw [List.map_map]
  congr 2
  exact List.map_congr_left fun w _ => lowerW_idem w

theorem pathcase_idem (s : String) :
    separatorcase (separatorcase s '/') '/' = separatorcase s '/' := by
  show (⟨joinSep '/' ((getWords (separatorcase s '/')).map lowerW)⟩ : String) = _
  rw [show getWords (separatorcase s '/') = (getWords s).map lowerW from
    getWords_joinSep_lowerW (by decide) (by decide) (by decide) s]
  unfold separatorcase
  rw [List.map_map]
  congr 2
  exact List.map_congr_left fun w _ => lowerW_idem w

theorem constcase_idem (s : String) : constcase (constcase s) = constcase s := by
  show (⟨joinSep '_' ((getWords (constcase s)).map upperW)⟩ : String) = _
  rw [show getWords (constcase s) = (getWords s).map upperW from
    getWords_joinSep_upperW (by decide) (by decide) (by decide) s]
  unfold constcase
  rw [List.map_map]
  congr 2
  exact List.map_congr_left fun w _ => upperW_idem w

theorem upperkebabcase_idem (s : String) :
    upperkebabcase (upperkebabcase s) = upperkebabcase s := by
  show (⟨joinSep '-' ((getWords (upperkebabcase s)).map upperW)⟩ : String) = _
  rw [show getWords (upperkebabcase s) = (getWords s).map upperW from
    getWords_joinSep_upperW (by decide) (by decide) (by decide) s]
  unfold upperkebabcase
  rw [List.map_map]
  congr 2
  exact List.map_congr_left fun w _ => upperW_idem w

end Casefy

namespace Casefy

theorem gw_flatten : ∀ (l : List Char) (cur : GWState),
    (gwGo cur l).flatten = stateChars cur ++ l.filter isAlnum := by
  intro l
  induction l with
  | nil =>
    intro cur
    rcases cur with _ | ⟨k, c0, acc⟩
    · rfl
    · simp [gwGo, flushW, stateChars]
  | cons c cs ih =>
    intro cur
    by_cases hlo : isLow c = true
    · have halnum : isAlnum c = true := by simp [isAlnum, hlo]
      rcases cur with _ | ⟨k, c0, acc⟩
      · rw [gw_start_low hlo, ih]
        simp [stateChars, halnum]
      · cases k with
        | low =>
          rw [show gwGo (some (.low, c0, acc)) (c :: cs)
              = gwGo (some (.low, c, c0 :: acc)) cs by simp [gwGo, hlo], ih]
          simp [stateChars, halnum]
        | up =>
          rcases acc with _ | ⟨u1, us⟩
          · rw [show gwGo (some (.up, c0, [])) (c :: cs)
                = gwGo (some (.low, c, [c0])) cs by simp [gwGo, hlo], ih]
            simp [stateChars, halnum]
          · rw [show gwGo (some (.up, c0, u1 :: us)) (c :: cs)
                = (u1 :: us).reverse :: gwGo (some (.low, c, [c0])) cs by
              simp [gwGo, hlo]]
            rw [List.flatten_cons, ih]
            simp [stateChars, halnum]
        | dig =>
          rw [show gwGo (some (.dig, c0, acc)) (c :: cs)
              = (c0 :: acc).reverse :: gwGo (some (.low, c, [])) cs by
            simp [gwGo, hlo]]
          rw [List.flatten_cons, ih]
          simp [stateChars, halnum]
    · by_cases hup : isUp c = true
      · have halnum : isAlnum c = true := by simp [isAlnum, hup]
        rcases cur with _ | ⟨k, c0, acc⟩
        · rw [gw_start_up hup, ih]
          simp [stateChars, halnum]
        · cases k with
          | up =>
            rw [show gwGo (some (.up, c0, acc)) (c :: cs)
                = gwGo (some (.up, c, c0 :: acc)) cs by simp [gwGo, hlo, hup], ih]
            simp [stateChars, halnum]
          | low =>
            rw [show gwGo (some (.low, c0, acc)) (c :: cs)
                = (c0 :: acc).reverse :: gwGo (some (.up, c, [])) cs by
              simp [gwGo, hlo, hup]]
            rw [List.flatten_cons, ih]
            simp [stateChars, halnum]
          | dig =>
            rw [show gwGo (some (.dig, c0, acc)) (c :: cs)
                = (c0 :: acc).reverse :: gwGo (some (.up, c, [])) cs by
              simp [gwGo, hlo, hup]]
            rw [List.flatten_cons, ih]
            simp [stateChars, halnum]
      · by_cases hdg : isDig c = true
        · have halnum : isAlnum c = true := by simp [isAlnum, hdg]
          rcases cur with _ | ⟨k, c0, acc⟩
          · rw [gw_start_dig hdg, ih]
            simp [stateChars, halnum]
          · cases k with
            | dig =>
              rw [show gwGo (some (.dig, c0, acc)) (c :: cs)
                  = gwGo (some (.dig, c, c0 :: acc)) cs by
                simp [gwGo, hlo, hup, hdg], ih]
              simp [stateChars, halnum]
            | low =>
              rw [show gwGo (some (.low, c0, acc)) (c :: cs)
                  = (c0 :: acc).reverse :: gwGo (some (.dig, c, [])) cs by
                simp [gwGo, hlo, hup, hdg]]
              rw [List.flatten_cons, ih]
              simp [stateChars, halnum]
            | up =>
              rw [show gwGo (some (.up, c0, acc)) (c :: cs)
                  = (c0 :: acc).reverse :: gwGo (some (.dig, c, [])) cs by
                simp [gwGo, hlo, hup, hdg]]
              rw [List.flatten_cons, ih]
              simp [stateChars, halnum]
        · have hlo' : isLow c = false := by simpa using hlo
          have hup' : isUp c = false := by simpa using hup
          have hdg' : isDig c = false := by simpa using hdg
          have halnum : isAlnum c = false := by simp [isAlnum, hlo', hup', hdg']
          rcases cur with _ | ⟨k, c0, acc⟩
          · rw [gw_sep_none hlo' hup' hdg', ih]
            simp [stateChars, halnum]
          · rw [gw_sep_state hlo' hup' hdg']
            rw [List.flatten_cons, ih]
            simp [stateChars, halnum]

theorem getWords_flatten (s : String) :
    (getWords s).flatten = s.data.filter isAlnum := by
  rw [show getWords s = gwGo none s.data from rfl, gw_flatten]
  rfl

theorem lowercase_idem (s : String) : lowercase (lowercase s) = lowercase s := by
  show (⟨lowerW ((getWords (lowercase s)).flatten)⟩ : String) = _
  rw [getWords_flatten]
  show (⟨lowerW ((lowerW ((getWords s).flatten)).filter isAlnum)⟩ : String) = _
  rw [List.filter_eq_self.mpr ?_]
  · unfold lowercase
    congr 1
    exact lowerW_idem _
  · intro a ha
    obtain ⟨b, _, rfl⟩ := List.mem_map.mp ha
    rw [isAlnum_toLow]
    have : (getWords s).flatten = s.data.filter isAlnum := getWords_flatten s
    revert ‹b ∈ (getWords s).flatten›
    intro hb
    rw [this] at hb
    exact List.of_mem_filter hb

theorem uppercase_idem (s : String) : uppercase (uppercase s) = uppercase s := by
  show (⟨upperW ((getWords (uppercase s)).flatten)⟩ : String) = _
  rw [getWords_flatten]
  show (⟨upperW ((upperW ((getWords s).flatten)).filter isAlnum)⟩ : String) = _
  rw [List.filter_eq_self.mpr ?_]
  · unfold uppercase
    congr 1
    exact upperW_idem _
  · intro a ha
    obtain ⟨b, hb, rfl⟩ := List.mem_map.mp ha
    rw [isAlnum_toUp]
    rw [getWords_flatten s] at hb
    exact List.of_mem_filter hb

theorem capitalcase_idem (s : String) :
    capitalcase (capitalcase s) = capitalcase s := by
  rcases hs : s.data with _ | ⟨c, cs⟩
  · have h1 : capitalcase s = "" := by simp [capitalcase, hs]
    rw [h1]
    rfl
  · have h1 : capitalcase s = ⟨toUp c :: cs⟩ := by simp [capitalcase, hs]
    have h2 : capitalcase ⟨toUp c :: cs⟩ = ⟨toUp (toUp c) :: cs⟩ := by
      simp [capitalcase]
    rw [h1, h2, toUp_toUp]

theorem dropWhile_self_idem (p : Char → Bool) :
    ∀ l : List Char, (l.dropWhile p).dropWhile p = l.dropWhile p := by
  intro l
  induction l with
  | nil => rfl
  | cons c t ih =>
    by_cases hp : p c
    · rw [List.dropWhile_cons_of_pos hp]
      exact ih
    · have hp' : p c = false := by simpa using hp
      rw [List.dropWhile_cons_of_neg (by simp [hp'])]
      rw [List.dropWhile_cons_of_neg (by simp [hp'])]

theorem length_dropWhile_le (p : Char → Bool) :
    ∀ l : List Char, (l.dropWhile p).length ≤ l.length := by
  intro l
  induction l with
  | nil => exact Nat.le_refl _
  | cons c t ih =>
    by_cases hp : p c
    · rw [List.dropWhile_cons_of_pos hp]
      exact Nat.le_trans ih (by simp)
    · rw [List.dropWhile_cons_of_neg hp]

theorem stripW_idem (l : List Char) : stripW (stripW l) = stripW l := by
  have F2 : (stripW l).reverse.dropWhile isSpace = (stripW l).reverse := by
    show ((((l.dropWhile isSpace).reverse.dropWhile isSpace).reverse).reverse).dropWhile
        isSpace = _
    rw [List.reverse_reverse, dropWhile_self_idem]
    rw [show (stripW l).reverse
        = (l.dropWhile isSpace).reverse.dropWhile isSpace by
      unfold stripW
      rw [List.reverse_reverse]]
  have F1 : (stripW l).dropWhile isSpace = stripW l := by
    rcases hd : stripW l with _ | ⟨c, r⟩
    · rfl
    · have hsp : isSpace c = false := by
        by_contra hc
        simp only [Bool.not_eq_false] at hc
        have hdec : stripW l
            ++ ((l.dropWhile isSpace).reverse.takeWhile isSpace).reverse
            = l.dropWhile isSpace := by
          unfold stripW
          rw [← List.reverse_append, List.takeWhile_append_dropWhile,
            List.reverse_reverse]
        have hself := dropWhile_self_idem isSpace l
        rw [← hdec, hd] at hself
        rw [List.cons_append, List.dropWhile_cons_of_pos hc] at hself
        have hlencong := congrArg List.length hself
        have hlen := length_dropWhile_le isSpace
          (r ++ ((l.dropWhile isSpace).reverse.takeWhile isSpace).reverse)
        simp only [List.length_append, List.length_cons] at hlencong hlen
        omega
      rw [List.dropWhile_cons_of_neg (by simp [hsp])]
  show ((((stripW l).dropWhile isSpace).reverse).dropWhile isSpace).reverse = stripW l
  rw [F1, F2, List.reverse_reverse]

theorem trimcase_idem (s : String) : trimcase (trimcase s) = trimcase s := by
  show (⟨stripW (stripW s.data)⟩ : String) = _
  rw [stripW_idem]
  rfl

theorem alphanumcase_idem (s : String) :
    alphanumcase (alphanumcase s) = alphanumcase s := by
  show (⟨(s.data.filter isAlnum).filter isAlnum⟩ : String) = _
  rw [List.filter_filter]
  unfold alphanumcase
  congr 1
  exact List.filter_congr fun a _ => by cases h : isAlnum a <;> simp [h]

end Casefy

theorem except_bind_ok {α β ε : Type} {x : Except ε α} {g : α → Except ε β} {b : β} :
    (x >>= g) = .ok b ↔ ∃ a, x = .ok a ∧ g a = .ok b := by
  cases x <;> simp [Bind.bind, Except.bind]

theorem truthy_of_VT {v v' : Json} (h : VT v v') : truthy v' = truthy v := by
  cases v with
  | str s => rw [show v' = .str s from h]
  | num n => rw [show v' = .num n from h]
  | jbool b => rw [show v' = .jbool b from h]
  | null => rw [show v' = .null from h]
  | arr l =>
    obtain ⟨l2, rfl, hlen⟩ := h
    simp only [truthy]
    rcases l with _ | ⟨a, t⟩
    · rcases l2 with _ | ⟨a2, t2⟩
      · rfl
      · simp at hlen
    · rcases l2 with _ | ⟨a2, t2⟩
      · simp at hlen
      · rfl
  | obj o =>
    obtain ⟨o2, rfl, hkeys⟩ := h
    simp only [truthy]
    rcases o with _ | ⟨a, t⟩
    · rcases o2 with _ | ⟨a2, t2⟩
      · rfl
      · simp at hkeys
    · rcases o2 with _ | ⟨a2, t2⟩
      · simp at hkeys
      · rfl

theorem typeIsEnum_of_OptVT {pairs pairs' : List (String × Json)}
    (h : OptVT (alookup pairs "type") (alookup pairs' "type")) :
    typeIsEnum pairs' = typeIsEnum pairs := by
  unfold typeIsEnum
  cases h1 : alookup pairs "type" with
  | none =>
    rw [h1] at h
    cases h2 : alookup pairs' "type" with
    | none => rfl
    | some v' => rw [h2] at h; exact absurd h (by simp [OptVT])
  | some v =>
    rw [h1] at h
    cases h2 : alookup pairs' "type" with
    | none => rw [h2] at h; exact absurd h (by simp [OptVT])
    | some v' =>
      rw [h2] at h
      have h' : VT v v' := h
      cases v with
      | str s => rw [show v' = .str s from h']
      | num n => rw [show v' = .num n from h']
      | jbool b => rw [show v' = .jbool b from h']
      | null => rw [show v' = .null from h']
      | arr l => obtain ⟨l2, rfl, _⟩ := h'; rfl
      | obj o => obtain ⟨o2, rfl, _⟩ := h'; rfl

theorem alookup_cons {α : Type} (a : String) (b : α) (t : List (String × α))
    (k : String) :
    alookup ((a, b) :: t) k = if a = k then some b else alookup t k := rfl

theorem setFields_cons_eq (a : String) (b v : Json) (rest : List (String × Json)) :
    setFields ((a, b) :: rest) v
      = (if a = "fields" then (a, v) else (a, b)) :: setFields rest v := rfl

theorem alookup_setFields_ne (pairs : List (String × Json)) (v : Json) {k : String}
    (hk : ¬(k = "fields")) :
    alookup (setFields pairs v) k = alookup pairs k := by
  induction pairs with
  | nil => rfl
  | cons p rest ih =>
    obtain ⟨a, b⟩ := p
    rw [setFields_cons_eq]
    by_cases ha : a = "fields"
    · subst ha
      have hfk : ¬(("fields" : String) = k) := fun hh => hk hh.symm
      rw [if_pos rfl, alookup_cons, alookup_cons, if_neg hfk, if_neg hfk, ih]
    · rw [if_neg ha, alookup_cons, alookup_cons, ih]

theorem alookup_setFields_eq (pairs : List (String × Json)) (v w : Json)
    (h : alookup pairs "fields" = some w) :
    alookup (setFields pairs v) "fields" = some v := by
  induction pairs with
  | nil => simp [alookup] at h
  | cons p rest ih =>
    obtain ⟨a, b⟩ := p
    rw [setFields_cons_eq]
    by_cases ha : a = "fields"
    · subst ha
      rw [if_pos rfl, alookup_cons, if_pos rfl]
    · rw [alookup_cons, if_neg ha] at h
      rw [if_neg ha, alookup_cons, if_neg ha]
      exact ih h

theorem setFields_idem (pairs : List (String × Json)) (v : Json) :
    setFields (setFields pairs v) v = setFields pairs v := by
  unfold setFields
  rw [List.map_map]
  refine List.map_congr_left fun p _ => ?_
  by_cases hp : p.1 = "fields"
  · simp [Function.comp, hp]
  · simp [Function.comp, hp]

theorem map_fst_setFields (pairs : List (String × Json)) (v : Json) :
    (setFields pairs v).map Prod.fst = pairs.map Prod.fst := by
  unfold setFields
  rw [List.map_map]
  refine List.map_congr_left fun p _ => ?_
  by_cases hp : p.1 = "fields"
  · simp [Function.comp, hp]
  · simp [Function.comp, hp]

theorem hasKey_congr {o o2 : List (String × Json)}
    (h : o2.map Prod.fst = o.map Prod.fst) (k : String) :
    hasKey o2 k = hasKey o k := by
  induction o generalizing o2 with
  | nil =>
    have : o2 = [] := by simpa using h
    subst this
    rfl
  | cons p t ih =>
    obtain ⟨a, b⟩ := p
    rcases o2 with _ | ⟨⟨a2, b2⟩, t2⟩
    · simp at h
    · simp only [List.map_cons, List.cons.injEq] at h
      obtain ⟨ha, ht⟩ := h
      simp only [hasKey, alookup]
      subst ha
      by_cases hak : a2 = k
      · rw [if_pos hak, if_pos hak]
        rfl
      · rw [if_neg hak, if_neg hak]
        exact ih ht

theorem VT_refl (v : Json) : VT v v := by
  cases v with
  | str s => rfl
  | num n => rfl
  | jbool b => rfl
  | null => rfl
  | arr l => exact ⟨l, rfl, rfl⟩
  | obj o => exact ⟨o, rfl, rfl⟩

theorem caseEntries_cons_eq (ct : String) (f : String → String) (k : String)
    (v : Json) (rest : List (String × Json)) :
    caseEntries ct f ((k, v) :: rest)
      = entryStep ct f k v >>= fun v' =>
          caseEntries ct f rest >>= fun rest' => pure ((k, v') :: rest') := by
  cases v with
  | obj o =>
    by_cases hk : k = "name" <;> by_cases hn : hasKey o "name" <;>
      simp [caseEntries, entryStep, hk, hn]
  | str s => by_cases hk : k = "name" <;> simp [caseEntries, entryStep, hk]
  | num n => by_cases hk : k = "name" <;> simp [caseEntries, entryStep, hk]
  | jbool b => by_cases hk : k = "name" <;> simp [caseEntries, entryStep, hk]
  | null => by_cases hk : k = "name" <;> simp [caseEntries, entryStep, hk]
  | arr l => by_cases hk : k = "name" <;> simp [caseEntries, entryStep, hk]

theorem caseList_cons_eq (ct : String) (e : Json) (rest : List Json) :
    caseList ct (e :: rest)
      = (match e with
          | .obj o => case_record (.obj o) ct
          | other => pure other) >>= fun e' =>
          caseList ct rest >>= fun rest' => pure (e' :: rest') := by
  cases e <;> simp [caseList]

theorem caseFields_cons_eq (ct : String) (fj : Json) (rest : List Json) :
    caseFields ct (fj :: rest)
      = case_item fj ct >>= fun f' =>
          caseFields ct rest >>= fun rest' => pure (f' :: rest') := by
  simp only [caseFields]

theorem case_record_enum (ct : String) {epairs : List (String × Json)}
    (h : typeIsEnum epairs = true) :
    case_record (.obj epairs) ct = .ok (.obj epairs) := by
  simp [case_record, h]

theorem caseList_enum_pres (ct : String) :
    ∀ l l' : List Json, caseList ct l = .ok l' →
      l'.length = l.length ∧
      ∀ (j : Nat) epairs, l[j]? = some (Json.obj epairs) → typeIsEnum epairs = true →
        l'[j]? = some (Json.obj epairs) := by
  intro l
  induction l with
  | nil =>
    intro l' h
    simp only [caseList, Except.ok.injEq] at h
    subst h
    refine ⟨rfl, ?_⟩
    intro j epairs hj
    simp at hj
  | cons e rest ih =>
    intro l' h
    rw [caseList_cons_eq, except_bind_ok] at h
    obtain ⟨e', he', h2⟩ := h
    rw [except_bind_ok] at h2
    obtain ⟨rest', hrest', hp⟩ := h2
    have hl' : l' = e' :: rest' := by
      simpa [pure, Except.pure] using hp.symm
    subst hl'
    obtain ⟨hlen, hpres⟩ := ih rest' hrest'
    refine ⟨by simp [hlen], ?_⟩
    intro j epairs hj hte
    cases j with
    | zero =>
      simp only [List.getElem?_cons_zero, Option.some.injEq] at hj
      subst hj
      have he2 : case_record (Json.obj epairs) ct = Except.ok e' := he'
      rw [case_record_enum ct hte] at he2
      injection he2 with he3
      rw [List.getElem?_cons_zero, he3]
    | succ n =>
      simp only [List.getElem?_cons_succ] at hj ⊢
      exact hpres n epairs hj hte

theorem caseEntries_enum_pres (ct : String) (f : String → String) :
    ∀ pairs pairs' : List (String × Json),
      caseEntries ct f pairs = .ok pairs' →
      pairs'.map Prod.fst = pairs.map Prod.fst ∧
      (∀ (i : Nat) s, pairs[i]? = some ("name", Json.str s) →
          pairs'[i]? = some ("name", Json.str (f s))) ∧
      (∀ (i : Nat) k epairs, pairs[i]? = some (k, Json.obj epairs) → ¬(k = "name") →
          typeIsEnum epairs = true → pairs'[i]? = some (k, Json.obj epairs)) ∧
      (∀ (i : Nat) k elems, pairs[i]? = some (k, Json.arr elems) → ¬(k = "name") →
          ∃ elems', pairs'[i]? = some (k, Json.arr elems') ∧
            elems'.length = elems.length ∧
            ∀ (j : Nat) epairs, elems[j]? = some (Json.obj epairs) →
              typeIsEnum epairs = true → elems'[j]? = some (Json.obj epairs)) := by
  intro pairs
  induction pairs with
  | nil =>
    intro pairs' h
    simp only [caseEntries, Except.ok.injEq] at h
    subst h
    refine ⟨rfl, ?_, ?_, ?_⟩
    · intro i s hi
      simp at hi
    · intro i k epairs hi
      simp at hi
    · intro i k elems hi
      simp at hi
  | cons p rest ih =>
    obtain ⟨k0, v0⟩ := p
    intro pairs' h
    rw [caseEntries_cons_eq, except_bind_ok] at h
    obtain ⟨v', hv', h2⟩ := h
    rw [except_bind_ok] at h2
    obtain ⟨rest', hrest', hp⟩ := h2
    have hps : pairs' = (k0, v') :: rest' := by
      simpa [pure, Except.pure] using hp.symm
    subst hps
    obtain ⟨ihkeys, ihname, ihenum, iharr⟩ := ih rest' hrest'
    refine ⟨by simp [ihkeys], ?_, ?_, ?_⟩
    · intro i s hi
      cases i with
      | zero =>
        simp only [List.getElem?_cons_zero, Option.some.injEq] at hi
        have hk : k0 = "name" := congrArg Prod.fst hi
        have hv : v0 = Json.str s := congrArg Prod.snd hi
        subst hk
        subst hv
        simp only [entryStep, if_pos rfl] at hv'
        have hv2 : Json.str (f s) = v' := by
          simpa [pure, Except.pure] using hv'
        rw [List.getElem?_cons_zero, ← hv2]
      | succ n =>
        simp only [List.getElem?_cons_succ] at hi ⊢
        exact ihname n s hi
    · intro i k epairs hi hk hte
      cases i with
      | zero =>
        simp only [List.getElem?_cons_zero, Option.some.injEq] at hi
        have hk0 : k0 = k := congrArg Prod.fst hi
        have hv0 : v0 = Json.obj epairs := congrArg Prod.snd hi
        subst hk0
        subst hv0
        simp only [entryStep] at hv'
        rw [if_neg hk] at hv'
        have hv2 : (if hasKey epairs "name" then case_record (Json.obj epairs) ct
            else pure (Json.obj epairs)) = Except.ok v' := hv'
        by_cases hn : hasKey epairs "name"
        · rw [if_pos hn, case_record_enum ct hte] at hv2
          injection hv2 with hv3
          rw [List.getElem?_cons_zero, ← hv3]
        · rw [if_neg hn] at hv2
          have hv3 : Json.obj epairs = v' := by
            simpa [pure, Except.pure] using hv2
          rw [List.getElem?_cons_zero, ← hv3]
      | succ n =>
        simp only [List.getElem?_cons_succ] at hi ⊢
        exact ihenum n k epairs hi hk hte
    · intro i k elems hi hk
      cases i with
      | zero =>
        simp only [List.getElem?_cons_zero, Option.some.injEq] at hi
        have hk0 : k0 = k := congrArg Prod.fst hi
        have hv0 : v0 = Json.arr elems := congrArg Prod.snd hi
        subst hk0
        subst hv0
        simp only [entryStep] at hv'
        rw [if_neg hk] at hv'
        have hv2 : (caseList ct elems >>= fun l2 => pure (Json.arr l2))
            = Except.ok v' := hv'
        rw [except_bind_ok] at hv2
        obtain ⟨l2, hl2, hp2⟩ := hv2
        have hv3 : v' = Json.arr l2 := by
          simpa [pure, Except.pure] using hp2.symm
        subst hv3
        obtain ⟨hlen2, hpres2⟩ := caseList_enum_pres ct elems l2 hl2
        exact ⟨l2, by simp, hlen2, hpres2⟩
      | succ n =>
        simp only [List.getElem?_cons_succ] at hi ⊢
        exact iharr n k elems hi hk

theorem caseFields_item_pres (ct : String) (f : String → String)
    (hct : alookup CASE_TO_FUNC ct = some f) :
    ∀ l l' : List Json, caseFields ct l = .ok l' →
      l'.length = l.length ∧
      ∀ (m : Nat) fpairs, l[m]? = some (Json.obj fpairs) →
        ∃ fpairs', l'[m]? = some (Json.obj fpairs') ∧
          caseEntries ct f fpairs = .ok fpairs' := by
  intro l
  induction l with
  | nil =>
    intro l' h
    simp only [caseFields, Except.ok.injEq] at h
    subst h
    refine ⟨rfl, ?_⟩
    intro m fpairs hm
    simp at hm
  | cons fj rest ih =>
    intro l' h
    rw [caseFields_cons_eq, except_bind_ok] at h
    obtain ⟨f', hf', h2⟩ := h
    rw [except_bind_ok] at h2
    obtain ⟨rest', hrest', hp⟩ := h2
    have hl' : l' = f' :: rest' := by
      simpa [pure, Except.pure] using hp.symm
    subst hl'
    obtain ⟨hlen, hpres⟩ := ih rest' hrest'
    refine ⟨by simp [hlen], ?_⟩
    intro m fpairs hm
    cases m with
    | zero =>
      simp only [List.getElem?_cons_zero, Option.some.injEq] at hm
      subst hm
      simp only [case_item, hct] at hf'
      rw [except_bind_ok] at hf'
      obtain ⟨fp', hfp', hpp⟩ := hf'
      have hfo : f' = Json.obj fp' := by
        simpa [pure, Except.pure] using hpp.symm
      subst hfo
      exact ⟨fp', by simp, hfp'⟩
    | succ n =>
      simp only [List.getElem?_cons_succ] at hm ⊢
      exact hpres n fpairs hm

theorem case_idem_main (ct : String) (f : String → String)
    (hct : alookup CASE_TO_FUNC ct = some f) (hf : ∀ s, f (f s) = f s) :
    ∀ N : Nat, EntriesIdem ct f N ∧ ListIdem ct N ∧ ItemIdem ct N
      ∧ RecordIdem ct N ∧ FieldsIdem ct N := by
  intro N
  induction N using Nat.strong_induction_on with
  | _ N ih =>
  refine ⟨?_, ?_, ?_, ?_, ?_⟩
  -- caseEntries
  · intro pairs pairs' hsz h
    match pairs with
    | [] =>
      simp only [caseEntries] at h
      have hp : pairs' = [] := by simpa using h.symm
      subst hp
      exact ⟨by simp [caseEntries], rfl, fun k _ => by simp [alookup, OptVT]⟩
    | (k, v) :: rest =>
      rw [caseEntries_cons_eq, except_bind_ok] at h
      obtain ⟨v', hv', h⟩ := h
      rw [except_bind_ok] at h
      obtain ⟨rest', hrest', h⟩ := h
      have hp : pairs' = (k, v') :: rest' := by
        simpa [pure, Except.pure] using h.symm
      subst hp
      have hszrest : 2 * sizeOf rest < N := by
        have : sizeOf rest < sizeOf ((k, v) :: rest) := by first | (simp; omega) | simp
        omega
      obtain ⟨ihE, _, _, _, _⟩ := ih (2 * sizeOf rest) hszrest
      obtain ⟨hrest_idem, hrest_keys, hrest_look⟩ := ihE rest rest' le_rfl hrest'
      have hstep : entryStep ct f k v' = .ok v' ∧ (¬(k = "name") → VT v v') := by
        cases v with
        | str s =>
          by_cases hk : k = "name"
          · simp only [entryStep, if_pos hk] at hv'
            have hv'' : v' = .str (f s) := by
              simpa [pure, Except.pure] using hv'.symm
            subst hv''
            refine ⟨?_, fun hcon => absurd hk hcon⟩
            simp only [entryStep, if_pos hk]
            show Except.ok (Json.str (f (f s))) = _
            rw [hf s]
          · simp only [entryStep, if_neg hk] at hv'
            have hv'' : v' = .str s := by
              simpa [pure, Except.pure] using hv'.symm
            subst hv''
            exact ⟨by simp [entryStep, hk, pure, Except.pure], fun _ => VT_refl _⟩
        | obj o =>
          by_cases hk : k = "name"
          · simp only [entryStep, if_pos hk] at hv'
            simp [throwThe, throw, MonadExcept.throw, Except.error] at hv'
          · simp only [entryStep, if_neg hk] at hv'
            by_cases hn : hasKey o "name"
            · rw [if_pos hn] at hv'
              have hszo : 2 * sizeOf (Json.obj o) + 1 < N := by
                have : sizeOf (Json.obj o) < sizeOf ((k, Json.obj o) :: rest) := by
                  first | (simp; omega) | simp
                omega
              obtain ⟨_, _, _, ihR, _⟩ := ih (2 * sizeOf (Json.obj o) + 1) hszo
              obtain ⟨hrec2, po, po', hpo, hpo', hkeys⟩ :=
                ihR (Json.obj o) v' le_rfl hv'
              have hoo : po = o := by
                injection hpo with hh
                exact hh.symm
              subst hoo
              subst hpo'
              constructor
              · simp only [entryStep, if_neg hk]
                rw [if_pos (by rw [hasKey_congr hkeys]; exact hn)]
                exact hrec2
              · exact fun _ => ⟨po', rfl, hkeys⟩
            · rw [if_neg hn] at hv'
              have hv'' : v' = .obj o := by
                simpa [pure, Except.pure] using hv'.symm
              subst hv''
              refine ⟨?_, fun _ => VT_refl _⟩
              simp only [entryStep, if_neg hk]
              rw [if_neg hn]
              rfl
        | arr l =>
          by_cases hk : k = "name"
          · simp only [entryStep, if_pos hk] at hv'
            simp [throwThe, throw, MonadExcept.throw, Except.error] at hv'
          · simp only [entryStep, if_neg hk] at hv'
            rw [except_bind_ok] at hv'
            obtain ⟨l', hl', hv'⟩ := hv'
            have hv'' : v' = .arr l' := by
              simpa [pure, Except.pure] using hv'.symm
            subst hv''
            have hszl : 2 * sizeOf l < N := by
              have : sizeOf l < sizeOf ((k, Json.arr l) :: rest) := by
                first | (simp; omega) | simp
              omega
            obtain ⟨_, ihL, _, _, _⟩ := ih (2 * sizeOf l) hszl
            obtain ⟨hlist2, hlen⟩ := ihL l l' le_rfl hl'
            constructor
            · simp only [entryStep, if_neg hk]
              rw [except_bind_ok]
              exact ⟨l', hlist2, rfl⟩
            · exact fun _ => ⟨l', rfl, hlen⟩
        | num n =>
          by_cases hk : k = "name"
          · simp only [entryStep, if_pos hk] at hv'
            simp [throwThe, throw, MonadExcept.throw, Except.error] at hv'
          · simp only [entryStep, if_neg hk] at hv'
            have hv'' : v' = .num n := by
              simpa [pure, Except.pure] using hv'.symm
            subst hv''
            exact ⟨by simp [entryStep, hk, pure, Except.pure], fun _ => VT_refl _⟩
        | jbool b =>
          by_cases hk : k = "name"
          · simp only [entryStep, if_pos hk] at hv'
            simp [throwThe, throw, MonadExcept.throw, Except.error] at hv'
          · simp only [entryStep, if_neg hk] at hv'
            have hv'' : v' = .jbool b := by
              simpa [pure, Except.pure] using hv'.symm
            subst hv''
            exact ⟨by simp [entryStep, hk, pure, Except.pure], fun _ => VT_refl _⟩
        | null =>
          by_cases hk : k = "name"
          · simp only [entryStep, if_pos hk] at hv'
            simp [throwThe, throw, MonadExcept.throw, Except.error] at hv'
          · simp only [entryStep, if_neg hk] at hv'
            have hv'' : v' = .null := by
              simpa [pure, Except.pure] using hv'.symm
            subst hv''
            exact ⟨by simp [entryStep, hk, pure, Except.pure], fun _ => VT_refl _⟩
      refine ⟨?_, ?_, ?_⟩
      · rw [caseEntries_cons_eq, except_bind_ok]
        refine ⟨v', hstep.1, ?_⟩
        rw [except_bind_ok]
        exact ⟨rest', hrest_idem, rfl⟩
      · simp [hrest_keys]
      · intro k' hk'
        rw [alookup_cons, alookup_cons]
        by_cases hkk : k = k'
        · rw [if_pos hkk, if_pos hkk]
          exact hstep.2 (hkk ▸ hk')
        · rw [if_neg hkk, if_neg hkk]
          exact hrest_look k' hk'
  -- caseList
  · intro l l' hsz h
    match l with
    | [] =>
      simp only [caseList] at h
      have hp : l' = [] := by simpa using h.symm
      subst hp
      exact ⟨by simp [caseList], rfl⟩
    | e :: rest =>
      rw [caseList_cons_eq, except_bind_ok] at h
      obtain ⟨e', he', h⟩ := h
      rw [except_bind_ok] at h
      obtain ⟨rest', hrest', h⟩ := h
      have hp : l' = e' :: rest' := by simpa [pure, Except.pure] using h.symm
      subst hp
      have hszrest : 2 * sizeOf rest < N := by
        have : sizeOf rest < sizeOf (e :: rest) := by first | (simp; omega) | simp
        omega
      obtain ⟨_, ihL, _, _, _⟩ := ih (2 * sizeOf rest) hszrest
      obtain ⟨hrest_idem, hrest_len⟩ := ihL rest rest' le_rfl hrest'
      have hstep : (match e' with
          | .obj o => case_record (.obj o) ct
          | other => pure other) = Except.ok e' := by
        cases e with
        | obj o =>
          have hszo : 2 * sizeOf (Json.obj o) + 1 < N := by
            have : sizeOf (Json.obj o) < sizeOf (Json.obj o :: rest) := by
              first | (simp; omega) | simp
            omega
          obtain ⟨_, _, _, ihR, _⟩ := ih (2 * sizeOf (Json.obj o) + 1) hszo
          obtain ⟨hrec2, po, po', hpo, hpo', _⟩ := ihR (Json.obj o) e' le_rfl he'
          subst hpo'
          exact hrec2
        | str s =>
          have he'' : e' = .str s := by simpa [pure, Except.pure] using he'.symm
          subst he''
          rfl
        | num n =>
          have he'' : e' = .num n := by simpa [pure, Except.pure] using he'.symm
          subst he''
          rfl
        | jbool b =>
          have he'' : e' = .jbool b := by simpa [pure, Except.pure] using he'.symm
          subst he''
          rfl
        | null =>
          have he'' : e' = .null := by simpa [pure, Except.pure] using he'.symm
          subst he''
          rfl
        | arr a =>
          have he'' : e' = .arr a := by simpa [pure, Except.pure] using he'.symm
          subst he''
          rfl
      refine ⟨?_, by simp [hrest_len]⟩
      rw [caseList_cons_eq, except_bind_ok]
      refine ⟨e', hstep, ?_⟩
      rw [except_bind_ok]
      exact ⟨rest', hrest_idem, rfl⟩
  -- case_item
  · intro j j' hsz h
    simp only [case_item, hct] at h
    cases j with
    | obj pairs =>
      rw [except_bind_ok] at h
      obtain ⟨pairs0, hE, h⟩ := h
      have hp : j' = .obj pairs0 := by simpa [pure, Except.pure] using h.symm
      subst hp
      have hszp : 2 * sizeOf pairs < N := by
        have : sizeOf pairs < sizeOf (Json.obj pairs) := by first | (simp; omega) | simp
        omega
      obtain ⟨ihE, _, _, _, _⟩ := ih (2 * sizeOf pairs) hszp
      obtain ⟨hidem, hkeys, hlook⟩ := ihE pairs pairs0 le_rfl hE
      refine ⟨?_, pairs, pairs0, rfl, rfl, hkeys, hlook⟩
      simp only [case_item, hct]
      rw [except_bind_ok]
      exact ⟨pairs0, hidem, rfl⟩
    | str s => simp at h
    | num n => simp at h
    | jbool b => simp at h
    | null => simp at h
    | arr a => simp at h
  -- case_record
  · intro j j' hsz h
    cases j with
    | str s => simp [case_record] at h
    | num n => simp [case_record] at h
    | jbool b => simp [case_record] at h
    | null => simp [case_record] at h
    | arr a => simp [case_record] at h
    | obj pairs =>
      by_cases he : typeIsEnum pairs = true
      · simp only [case_record, he, if_true] at h
        have hp : j' = .obj pairs := by simpa using h.symm
        subst hp
        exact ⟨by simp [case_record, he], pairs, pairs, rfl, rfl, rfl⟩
      · have he' : typeIsEnum pairs = false := by simpa using he
        simp only [case_record, he', Bool.false_eq_true, if_false] at h
        split at h
        next f0 fl heqf =>
          rw [except_bind_ok] at h
          obtain ⟨fl', hF, h⟩ := h
          have hp : j' = .obj (setFields pairs (Json.arr fl')) := by
            simpa [pure, Except.pure] using h.symm
          subst hp
          have hszf : 2 * sizeOf (f0 :: fl) < N := by
            have h1 := sizeOf_alookup heqf
            have h2 : sizeOf (Json.obj pairs) = 1 + sizeOf pairs := by simp
            have h3 : sizeOf (Json.arr (f0 :: fl)) = 1 + sizeOf (f0 :: fl) := by
              first | (simp; omega) | simp
            omega
          obtain ⟨_, _, _, _, ihF⟩ := ih (2 * sizeOf (f0 :: fl)) hszf
          obtain ⟨hfields2, hflen⟩ := ihF (f0 :: fl) fl' le_rfl hF
          have hte2 : typeIsEnum (setFields pairs (Json.arr fl')) = false := by
            unfold typeIsEnum
            rw [alookup_setFields_ne _ _ (by decide)]
            unfold typeIsEnum at he'
            exact he'
          have hlf : alookup (setFields pairs (Json.arr fl')) "fields"
              = some (Json.arr fl') :=
            alookup_setFields_eq pairs _ _ heqf
          rcases fl' with _ | ⟨g0, gl⟩
          · simp at hflen
          refine ⟨?_, pairs, _, rfl, rfl, map_fst_setFields pairs _⟩
          simp only [case_record, hte2, Bool.false_eq_true, if_false]
          split
          next f0' fl0' heqf' =>
            rw [hlf] at heqf'
            have hfl : Json.arr (g0 :: gl) = Json.arr (f0' :: fl0') := by
              injection heqf'
            injection hfl with hfl
            rw [← hfl, hfields2]
            show Except.ok _ = _
            rw [setFields_idem]
          next fv' hnarr heqf' =>
            rw [hlf] at heqf'
            have hfv : Json.arr (g0 :: gl) = fv' := by injection heqf'
            exact absurd (hnarr g0 gl hfv.symm) (fun hff => hff)
          next heqf' =>
            rw [hlf] at heqf'
            cases heqf'
        next fv hnarr heqf =>
          by_cases ht : truthy fv = true
          · rw [if_pos ht] at h
            cases h
          · rw [if_neg (by simpa using ht)] at h
            have hszi : 2 * sizeOf (Json.obj pairs) < N := by omega
            obtain ⟨_, _, ihI, _, _⟩ := ih (2 * sizeOf (Json.obj pairs)) hszi
            obtain ⟨hitem2, p1, p2, hp1, hp2, hkeys, hlook⟩ :=
              ihI (Json.obj pairs) j' le_rfl h
            have hpp : p1 = pairs := by injection hp1 with hh; exact hh.symm
            subst hpp
            subst hp2
            have hte2 : typeIsEnum p2 = false := by
              rw [typeIsEnum_of_OptVT (hlook "type" (by decide))]
              simpa using he
            have hlf2 := hlook "fields" (by decide)
            rw [heqf] at hlf2
            refine ⟨?_, p1, p2, rfl, rfl, hkeys⟩
            simp only [case_record, hte2, Bool.false_eq_true, if_false]
            cases hlp2 : alookup p2 "fields" with
            | none =>
              rw [hlp2] at hlf2
              exact absurd hlf2 (by simp [OptVT])
            | some fv2 =>
              rw [hlp2] at hlf2
              have hvt : VT fv fv2 := hlf2
              have htr2 : truthy fv2 = false := by
                rw [truthy_of_VT hvt]
                simpa using ht
              split
              next f0' fl0' heqf' =>
                have hfv2 : fv2 = Json.arr (f0' :: fl0') := by injection heqf'
                rw [hfv2] at htr2
                simp [truthy] at htr2
              next fv2' hnarr' heqf' =>
                have hfv : fv2 = fv2' := by injection heqf'
                subst hfv
                rw [if_neg (by simp [htr2])]
                exact hitem2
              next heqf' =>
                cases heqf'
        next heqf =>
          have hszi : 2 * sizeOf (Json.obj pairs) < N := by omega
          obtain ⟨_, _, ihI, _, _⟩ := ih (2 * sizeOf (Json.obj pairs)) hszi
          obtain ⟨hitem2, p1, p2, hp1, hp2, hkeys, hlook⟩ :=
            ihI (Json.obj pairs) j' le_rfl h
          have hpp : p1 = pairs := by injection hp1 with hh; exact hh.symm
          subst hpp
          subst hp2
          have hte2 : typeIsEnum p2 = false := by
            rw [typeIsEnum_of_OptVT (hlook "type" (by decide))]
            simpa using he
          have hlf2 := hlook "fields" (by decide)
          rw [heqf] at hlf2
          refine ⟨?_, p1, p2, rfl, rfl, hkeys⟩
          simp only [case_record, hte2, Bool.false_eq_true, if_false]
          cases hlp2 : alookup p2 "fields" with
          | some fv2 =>
            rw [hlp2] at hlf2
            exact absurd hlf2 (by simp [OptVT])
          | none =>
            exact hitem2
  -- caseFields
  · intro l l' hsz h
    match l with
    | [] =>
      simp only [caseFields] at h
      have hp : l' = [] := by simpa using h.symm
      subst hp
      exact ⟨by simp [caseFields], rfl⟩
    | fj :: rest =>
      rw [caseFields_cons_eq, except_bind_ok] at h
      obtain ⟨f'0, hf0, h⟩ := h
      rw [except_bind_ok] at h
      obtain ⟨rest', hrest', h⟩ := h
      have hp : l' = f'0 :: rest' := by simpa [pure, Except.pure] using h.symm
      subst hp
      have hszrest : 2 * sizeOf rest < N := by
        have : sizeOf rest < sizeOf (fj :: rest) := by first | (simp; omega) | simp
        omega
      obtain ⟨_, _, _, _, ihF⟩ := ih (2 * sizeOf rest) hszrest
      obtain ⟨hrest_idem, hrest_len⟩ := ihF rest rest' le_rfl hrest'
      have hszj : 2 * sizeOf fj < N := by
        have : sizeOf fj < sizeOf (fj :: rest) := by first | (simp; omega) | simp
        omega
      obtain ⟨_, _, ihI, _, _⟩ := ih (2 * sizeOf fj) hszj
      obtain ⟨hitem2, _⟩ := ihI fj f'0 le_rfl hf0
      refine ⟨?_, by simp [hrest_len]⟩
      rw [caseFields_cons_eq, except_bind_ok]
      refine ⟨f'0, hitem2, ?_⟩
      rw [except_bind_ok]
      exact ⟨rest', hrest_idem, rfl⟩

/-- C4 (corrected): applying `pascalcase` twice is not the same as applying
it once — the field name `a_b` becomes `AB` on the first pass and the
acronym `AB` collapses to `Ab` on the second, so
`case_record (case_record d) ≠ case_record d` for this document. -/
theorem C4_counterexample :
    case_record pascalDoc "pascalcase" = .ok pascalDoc1 ∧
    case_record pascalDoc1 "pascalcase" = .ok pascalDoc2 ∧
    firstFieldNameOf pascalDoc1 = some "AB" ∧
    firstFieldNameOf pascalDoc2 = some "Ab" ∧
    firstFieldNameOf pascalDoc2 ≠ firstFieldNameOf pascalDoc1 := by
  have hp1 : Casefy.pascalcase "a_b" = "AB" := by decide
  have hp2 : Casefy.pascalcase "AB" = "Ab" := by decide
  refine ⟨?_, ?_, by decide, by decide, by decide⟩
  · simp [pascalDoc, pascalDoc1, case_record, typeIsEnum, alookup, caseFields,
      case_item, caseEntries, hasKey, setFields, hp1, ENUM]
    rfl
  · simp [pascalDoc1, pascalDoc2, case_record, typeIsEnum, alookup, caseFields,
      case_item, caseEntries, hasKey, setFields, hp2, ENUM]
    rfl

/-- C4 (amended): for the ten supported case styles other than `camelcase`
and `pascalcase`, the case transformation is idempotent: whenever
`case_record d ct` succeeds with document `d'`, transforming `d'` again
returns `d'` unchanged. -/
theorem C4_case_record_idem (ct : String) (hmem : ct ∈ tenStableTokens)
    (d d' : Json) (h : case_record d ct = .ok d') :
    case_record d' ct = .ok d' := by
  have key : ∃ f, alookup CASE_TO_FUNC ct = some f ∧ ∀ s, f (f s) = f s := by
    simp only [tenStableTokens, List.mem_cons, List.not_mem_nil, or_false] at hmem
    rcases hmem with rfl | rfl | rfl | rfl | rfl | rfl | rfl | rfl | rfl | rfl
    · exact ⟨Casefy.capitalcase, rfl, Casefy.capitalcase_idem⟩
    · exact ⟨Casefy.constcase, rfl, Casefy.constcase_idem⟩
    · exact ⟨Casefy.lowercase, rfl, Casefy.lowercase_idem⟩
    · exact ⟨fun v => Casefy.separatorcase v '/', rfl, Casefy.pathcase_idem⟩
    · exact ⟨Casefy.snakecase, rfl, Casefy.snakecase_idem⟩
    · exact ⟨Casefy.kebabcase, rfl, Casefy.kebabcase_idem⟩
    · exact ⟨Casefy.upperkebabcase, rfl, Casefy.upperkebabcase_idem⟩
    · exact ⟨Casefy.trimcase, rfl, Casefy.trimcase_idem⟩
    · exact ⟨Casefy.uppercase, rfl, Casefy.uppercase_idem⟩
    · exact ⟨Casefy.alphanumcase, rfl, Casefy.alphanumcase_idem⟩
  obtain ⟨f, hct, hfidem⟩ := key
  obtain ⟨_, _, _, ihR, _⟩ := case_idem_main ct f hct hfidem (2 * sizeOf d + 1)
  obtain ⟨h2, _⟩ := ihR d d' le_rfl h
  exact h2

/-- Witness for C4 (amended): re-applying `snakecase` to the already
transformed `PersonRecord` document returns it unchanged. -/
theorem C4_case_record_idem_witness :
    case_record personRecordSnaked "snakecase" = .ok personRecordSnaked := by
  refine C4_case_record_idem "snakecase" (by decide) personRecordDoc
    personRecordSnaked ?_
  have h1 : Casefy.snakecase "fullName" = "full_name" := by decide
  simp [personRecordDoc, personRecordSnaked, case_record, typeIsEnum, alookup,
    caseFields, case_item, caseEntries, hasKey, setFields, h1, ENUM]
  rfl

/-- C2 (amended): for every supported case style and every non-enum schema
document with a (nonempty) `fields` list, whenever the transformation
succeeds it rewrites only the `fields` entry: each field keeps its keys in
order, its `name` value is renamed exactly as dictated by the style's case
function, and every enum definition appearing as a field's value — directly
(an inline enum type) or as an element of a list value (a union type) — is
left byte-for-byte identical, its own `name` and every symbol string
included. -/
theorem C2_enum_exemption (ct : String) (f : String → String)
    (hct : alookup CASE_TO_FUNC ct = some f)
    (dpairs : List (String × Json)) (l : List Json) (d' : Json)
    (hne : typeIsEnum dpairs = false)
    (hfl : alookup dpairs "fields" = some (.arr l))
    (hnil : l ≠ [])
    (hok : case_record (.obj dpairs) ct = .ok d') :
    ∃ l', d' = Json.obj (setFields dpairs (Json.arr l'))
      ∧ l'.length = l.length
      ∧ ∀ (m : Nat) fpairs, l[m]? = some (Json.obj fpairs) →
        ∃ fpairs', l'[m]? = some (Json.obj fpairs')
          ∧ fpairs'.map Prod.fst = fpairs.map Prod.fst
          ∧ (∀ (i : Nat) s, fpairs[i]? = some ("name", Json.str s) →
              fpairs'[i]? = some ("name", Json.str (f s)))
          ∧ (∀ (i : Nat) k epairs, fpairs[i]? = some (k, Json.obj epairs) →
              ¬(k = "name") → typeIsEnum epairs = true →
              fpairs'[i]? = some (k, Json.obj epairs))
          ∧ (∀ (i : Nat) k elems, fpairs[i]? = some (k, Json.arr elems) → ¬(k = "name") →
              ∃ elems', fpairs'[i]? = some (k, Json.arr elems')
                ∧ elems'.length = elems.length
                ∧ ∀ (j : Nat) epairs, elems[j]? = some (Json.obj epairs) →
                    typeIsEnum epairs = true →
                    elems'[j]? = some (Json.obj epairs)) := by
  obtain ⟨f0, fl, rfl⟩ : ∃ f0 fl, l = f0 :: fl := by
    cases l with
    | nil => exact absurd rfl hnil
    | cons a as => exact ⟨a, as, rfl⟩
  simp only [case_record, hne, Bool.false_eq_true, if_false] at hok
  split at hok
  next g0 gl heq =>
    rw [hfl] at heq
    injection heq with h1
    injection h1 with h2
    injection h2 with h3 h4
    subst h3
    subst h4
    rw [except_bind_ok] at hok
    obtain ⟨l', hcf, hpr⟩ := hok
    have hd' : d' = Json.obj (setFields dpairs (Json.arr l')) := by
      simpa [pure, Except.pure] using hpr.symm
    obtain ⟨hlen, hfields⟩ := caseFields_item_pres ct f hct (f0 :: fl) l' hcf
    refine ⟨l', hd', hlen, ?_⟩
    intro m fpairs hm
    obtain ⟨fpairs', hm', hent⟩ := hfields m fpairs hm
    obtain ⟨hkeys, hname, henum, harr⟩ := caseEntries_enum_pres ct f fpairs fpairs' hent
    exact ⟨fpairs', hm', hkeys, hname, henum, harr⟩
  next fv hnarr heq =>
    rw [hfl] at heq
    injection heq with h1
    exact absurd h1.symm (fun hc => hnarr f0 fl hc)
  next heq =>
    rw [hfl] at heq
    exact Option.noConfusion heq

/-- Witness for C2 (amended): the concrete enum-field document under
`snakecase` — the field key is renamed to `favorite_color` while the inline
enum definition survives untouched. -/
theorem C2_enum_exemption_witness :
    ∃ l', enumFieldDocSnaked = Json.obj (setFields enumFieldDocPairs (Json.arr l'))
      ∧ l'.length = [enumFieldItem].length
      ∧ ∀ (m : Nat) fpairs, [enumFieldItem][m]? = some (Json.obj fpairs) →
        ∃ fpairs', l'[m]? = some (Json.obj fpairs')
          ∧ fpairs'.map Prod.fst = fpairs.map Prod.fst
          ∧ (∀ (i : Nat) s, fpairs[i]? = some ("name", Json.str s) →
              fpairs'[i]? = some ("name", Json.str (Casefy.snakecase s)))
          ∧ (∀ (i : Nat) k epairs, fpairs[i]? = some (k, Json.obj epairs) →
              ¬(k = "name") → typeIsEnum epairs = true →
              fpairs'[i]? = some (k, Json.obj epairs))
          ∧ (∀ (i : Nat) k elems, fpairs[i]? = some (k, Json.arr elems) → ¬(k = "name") →
              ∃ elems', fpairs'[i]? = some (k, Json.arr elems')
                ∧ elems'.length = elems.length
                ∧ ∀ (j : Nat) epairs, elems[j]? = some (Json.obj epairs) →
                    typeIsEnum epairs = true →
                    elems'[j]? = some (Json.obj epairs)) := by
  have hok : case_record (Json.obj enumFieldDocPairs) "snakecase"
      = Except.ok enumFieldDocSnaked := by
    have h1 : Casefy.snakecase "favoriteColor" = "favorite_color" := by decide
    simp [enumFieldDocPairs, enumFieldDocSnaked, case_record, typeIsEnum, alookup,
      caseFields, case_item, caseEntries, hasKey, setFields, h1, ENUM]
    rfl
  exact C2_enum_exemption "snakecase" Casefy.snakecase rfl enumFieldDocPairs
    [enumFieldItem] enumFieldDocSnaked (by decide) rfl (List.cons_ne_nil _ _) hok
